import Mathlib

/-!
# Decompiler widget: position / address correlation

A shallow embedding of `src/widgets/DecompilerWidget.cpp` (Cutter): the index of
displayed decompiled lines (`textLines`), the lookup of a line by text position
(`findLine`, `getOffsetAtLine`), the lookup of a line by address
(`findLineByOffset`), the two directions of synchronisation between the caret
and the host offset (`cursorPositionChanged`, `seekChanged`,
`updateCursorPosition`), the highlight derivation (`updateSelection`) and the
document builder (`doRefresh`).

Iterators into `textLines` are list indices: `begin()` is `0` and `end()` is the
length of the list. Addresses of the analysed binary (`RVA`, an unsigned 64-bit
integer in the source) are natural numbers; they are only compared, never
computed with. The no-address sentinel `RVA_INVALID` is declared outside this
file: every definition that uses it takes it as its first argument, so what is
proved holds for whatever value the sentinel has.
-/

namespace DecompilerWidget

/-- A text of the text widget (`QString`), given by its characters. The source
type is a sequence of UTF-16 code units; lengths and positions are counted in
these units by `QString.size`, not in characters. -/
abbrev QString := String

/-- The number of UTF-16 code units (`QChar`) that encode one character: one
inside the Basic Multilingual Plane, two (a surrogate pair) outside. -/
def QChar.units (c : Char) : Nat :=
  if c.toNat < 65536 then 1 else 2

/-- The function `QString::size`: the number of UTF-16 code units of a text. -/
def QString.size (s : QString) : Nat :=
  (s.data.map QChar.units).sum

/-- Splits the characters of a text at the position `n`, counted in UTF-16 code
units: the first part holds the characters that end at or before `n`. -/
def QString.splitUnits : List Char → Nat → List Char × List Char
  | [], _ => ([], [])
  | c :: cs, n =>
    if QChar.units c ≤ n then
      ((c :: (QString.splitUnits cs (n - QChar.units c)).1),
        (QString.splitUnits cs (n - QChar.units c)).2)
    else ([], c :: cs)

/-- The greatest 64-bit unsigned value, used as the concrete no-address sentinel
in the worked examples of this file. -/
def UT64_MAX : Nat := 18446744073709551615

/-- One line of a decompilation result (`DecompiledCode::Line`): its text `str`
and the address `addr` it was generated from, which is the sentinel
`RVA_INVALID` when the line has no address. -/
structure DecompiledCode.Line where
  str : QString
  addr : Nat
  deriving DecidableEq, Repr

/-- A single line of decompiled code as part of the displayed text, with its
`position` inside the text document (`struct DecompiledCodeTextLine`). -/
structure DecompiledCodeTextLine where
  position : Int
  line : DecompiledCode.Line
  deriving DecidableEq, Repr

/-- The expression `it->line.addr` for an iterator `it` of `textLines`. The
source only evaluates it at iterators different from `end()`; at `end()` the
embedding yields the sentinel passed as `RVA_INVALID`. -/
def addrAt (RVA_INVALID : Nat) (textLines : List DecompiledCodeTextLine) (it : Nat) : Nat :=
  match textLines[it]? with
  | some l => l.line.addr
  | none => RVA_INVALID

/-- The expression `it->position` for an iterator `it` of `textLines` (read only
at iterators different from `end()`; the embedding yields `0` at `end()`). -/
def positionAt (textLines : List DecompiledCodeTextLine) (it : Nat) : Int :=
  match textLines[it]? with
  | some l => l.position
  | none => 0

/-- The `for` loop of `DecompilerWidget::findLineByOffset`. `rest` is the range
from `it` to `textLines.end()`, `it` the loop iterator and `candidate` the best
line so far. The first branch is the `break`, the second the assignment
`candidate = it`. -/
def findLineByOffset.loop (RVA_INVALID : Nat) (textLines : List DecompiledCodeTextLine)
    (offset : Nat) : List DecompiledCodeTextLine → Nat → Nat → Nat
  | [], _, candidate => candidate
  | l :: rest, it, candidate =>
    let lineOffset := l.line.addr
    if lineOffset ≠ RVA_INVALID ∧ lineOffset > offset then
      candidate
    else if addrAt RVA_INVALID textLines candidate = RVA_INVALID
        ∨ (lineOffset ≠ RVA_INVALID ∧ lineOffset > addrAt RVA_INVALID textLines candidate) then
      findLineByOffset.loop RVA_INVALID textLines offset rest (it + 1) it
    else
      findLineByOffset.loop RVA_INVALID textLines offset rest (it + 1) candidate

/-- The expression `it->line.str` for an iterator `it` of `textLines` (the
empty text at `end()`). -/
def strAt (textLines : List DecompiledCodeTextLine) (it : Nat) : QString :=
  match textLines[it]? with
  | some l => l.line.str
  | none => ""

/-- The function `DecompilerWidget::findLineByOffset`: the iterator and the
candidate both start at `textLines.begin()`. -/
def findLineByOffset (RVA_INVALID : Nat) (textLines : List DecompiledCodeTextLine)
    (offset : Nat) : Nat :=
  findLineByOffset.loop RVA_INVALID textLines offset textLines 0 0

/-- A three-line document with addresses 5, 5, 7 and the positions `doRefresh`
gives the texts `a = 1;`, `b++;` and `b = 2;`. -/
def docTie : List DecompiledCodeTextLine :=
  [⟨0, ⟨"a = 1;", 5⟩⟩, ⟨7, ⟨"b++;", 5⟩⟩, ⟨12, ⟨"b = 2;", 7⟩⟩]

/-- A document whose addresses decrease: 7 then 5. -/
def docDecreasing : List DecompiledCodeTextLine :=
  [⟨0, ⟨"x", 7⟩⟩, ⟨2, ⟨"y", 5⟩⟩]

/-- The algorithm `std::upper_bound` of the C++ standard library, as the usual
binary search on the range `[first, first + len)` of `xs`: `half` is `len >> 1`
and `middle` is `first + half`; when `comp val *middle` holds the search goes on
in the left half, otherwise right of `middle`. The first argument bounds the
number of iterations; `len` iterations always suffice because `len` decreases
in every iteration. -/
def upper_bound.loop {α : Type} (xs : List α) (val : Int) (comp : Int → α → Bool) :
    Nat → Nat → Nat → Nat
  | 0, first, _ => first
  | fuel + 1, first, len =>
    if len = 0 then first
    else
      let half := len / 2
      let middle := first + half
      match xs[middle]? with
      | none => first
      | some x =>
        if comp val x then upper_bound.loop xs val comp fuel first half
        else upper_bound.loop xs val comp fuel (middle + 1) (len - half - 1)

/-- The call `std::upper_bound(xs.begin(), xs.end(), val, comp)`. -/
def upper_bound {α : Type} (xs : List α) (val : Int) (comp : Int → α → Bool) : Nat :=
  upper_bound.loop xs val comp xs.length 0 xs.length

/-- The function `DecompilerWidget::findLine`: `std::upper_bound` over
`textLines` with the comparison `pos < line.position`. -/
def findLine (textLines : List DecompiledCodeTextLine) (position : Int) : Nat :=
  upper_bound textLines position (fun pos line => decide (pos < line.position))

/-- The function `DecompilerWidget::getOffsetAtLine`, applied to the position
of the text cursor `tc`: `RVA_INVALID` when `findLine` gives `begin()`, else
the address of the line one step before. -/
def getOffsetAtLine (RVA_INVALID : Nat) (textLines : List DecompiledCodeTextLine)
    (tcPosition : Int) : Nat :=
  let it := findLine textLines tcPosition
  if it = 0 then RVA_INVALID
  else addrAt RVA_INVALID textLines (it - 1)

/-- The backward walk of `DecompilerWidget::updateCursorPosition`, as a
function of the iterator `it`: while `it` is not `begin()`, with `prev = it - 1`,
stop when `prev->line.addr != it->line.addr`, else continue from `prev`. -/
def updateCursorPosition.loop (RVA_INVALID : Nat) (textLines : List DecompiledCodeTextLine) :
    Nat → Nat
  | 0 => 0
  | prev + 1 =>
    if addrAt RVA_INVALID textLines prev ≠ addrAt RVA_INVALID textLines (prev + 1) then prev + 1
    else updateCursorPosition.loop RVA_INVALID textLines prev

/-- The `for` loop of `DecompilerWidget::updateSelection`. `rest` is the range
from `it` to `textLines.end()`; the loop runs while the line at `it` has a valid
address not greater than `cursorOffset`. The result lists the iterators at which
the body runs, in order. -/
def updateSelection.loop (RVA_INVALID : Nat) (cursorOffset : Nat) :
    List DecompiledCodeTextLine → Nat → List Nat
  | [], _ => []
  | l :: rest, it =>
    if l.line.addr ≠ RVA_INVALID ∧ l.line.addr ≤ cursorOffset then
      it :: updateSelection.loop RVA_INVALID cursorOffset rest (it + 1)
    else []

/-- The lines highlighted by the address branch of
`DecompilerWidget::updateSelection` for the resolved address `cursorOffset`: the
loop started at `findLineByOffset(cursorOffset)`. -/
def updateSelection.lines (RVA_INVALID : Nat) (textLines : List DecompiledCodeTextLine)
    (cursorOffset : Nat) : List Nat :=
  let it := findLineByOffset RVA_INVALID textLines cursorOffset
  updateSelection.loop RVA_INVALID cursorOffset (textLines.drop it) it

/-- The state of the widget and of its two collaborators: the members
`textLines` and `seekFromCursor`; of `ui->textEdit` the document text, the caret
position, whether the signal `cursorPositionChanged` is connected to the slot of
the same name, and the positions of the line highlights among the extra
selections; of the host the current offset (`Core()->getOffset()`) and the
addresses the widget has passed to `Core()->seek` so far, latest first. -/
structure Widget where
  textLines : List DecompiledCodeTextLine
  seekFromCursor : Bool
  plainText : QString
  textCursor : Int
  connected : Bool
  extraSelections : List Int
  coreOffset : Nat
  seeks : List Nat
  deriving DecidableEq, Repr

/-- The function `DecompilerWidget::connectCursorPositionChanged`: disconnects
the slot when `disconnect` is true and connects it otherwise. -/
def connectCursorPositionChanged (disconnect : Bool) (w : Widget) : Widget :=
  { w with connected := !disconnect }

/-- The function `DecompilerWidget::updateSelection`, restricted to the line
highlights: one highlight at the position of every line of the address run when
the caret resolves to a valid address, else one highlight at the caret. The
highlights of the word under the caret are appended by a helper outside this
file and are left out. -/
def updateSelection (RVA_INVALID : Nat) (w : Widget) : Widget :=
  let cursor := w.textCursor
  let cursorOffset := getOffsetAtLine RVA_INVALID w.textLines cursor
  if cursorOffset ≠ RVA_INVALID then
    { w with extraSelections :=
        (updateSelection.lines RVA_INVALID w.textLines cursorOffset).map (positionAt w.textLines) }
  else
    { w with extraSelections := [cursor] }

mutual

/-- The slot `DecompilerWidget::cursorPositionChanged`. The first argument
bounds the depth of nested calls among the functions of this group: every call
uses one unit, and `none` means the bound was too small. -/
def cursorPositionChanged (RVA_INVALID : Nat) : Nat → Widget → Option Widget
  | 0, _ => none
  | fuel + 1, w =>
    let offset := getOffsetAtLine RVA_INVALID w.textLines w.textCursor
    if offset ≠ RVA_INVALID ∧ offset ≠ w.coreOffset then
      match coreSeek RVA_INVALID fuel offset { w with seekFromCursor := true } with
      | none => none
      | some w1 => some (updateSelection RVA_INVALID { w1 with seekFromCursor := false })
    else
      some (updateSelection RVA_INVALID w)

/-- Modelled from the spec: the host operation `requestSeek` (`Core()->seek`,
whose code is outside this file). The request is recorded in `seeks`; the host
takes the requested address as its current offset and delivers its
offset-changed notification synchronously to the slot `seekChanged` connected in
the constructor. -/
def coreSeek (RVA_INVALID : Nat) : Nat → Nat → Widget → Option Widget
  | 0, _, _ => none
  | fuel + 1, offset, w =>
    seekChanged RVA_INVALID fuel { w with coreOffset := offset, seeks := offset :: w.seeks }

/-- The slot `DecompilerWidget::seekChanged`. -/
def seekChanged (RVA_INVALID : Nat) : Nat → Widget → Option Widget
  | 0, _ => none
  | fuel + 1, w =>
    if w.seekFromCursor then some w
    else updateCursorPosition RVA_INVALID fuel w

/-- The function `DecompilerWidget::updateCursorPosition`. -/
def updateCursorPosition (RVA_INVALID : Nat) : Nat → Widget → Option Widget
  | 0, _ => none
  | fuel + 1, w =>
    let offset := w.coreOffset
    let w1 := connectCursorPositionChanged true w
    let it := findLineByOffset RVA_INVALID w1.textLines offset
    if it ≠ w1.textLines.length then
      let it1 := updateCursorPosition.loop RVA_INVALID w1.textLines it
      match setTextCursor RVA_INVALID fuel (positionAt w1.textLines it1) w1 with
      | none => none
      | some w2 => some (connectCursorPositionChanged false (updateSelection RVA_INVALID w2))
    else
      some (connectCursorPositionChanged false w1)

/-- The text widget operation `setTextCursor` at a cursor of position
`position`: the caret moves there, and when this changes the caret position the
widget emits `cursorPositionChanged`, which runs the slot if it is connected. -/
def setTextCursor (RVA_INVALID : Nat) : Nat → Int → Widget → Option Widget
  | 0, _, _ => none
  | fuel + 1, position, w =>
    let w1 := { w with textCursor := position }
    if w.connected = true ∧ position ≠ w.textCursor then
      cursorPositionChanged RVA_INVALID fuel w1
    else some w1

end

/-- A caret movement made by the user in the text widget: the caret takes the
new position and the widget emits `cursorPositionChanged` as `setTextCursor`
does. -/
def caretMoved (RVA_INVALID : Nat) (fuel : Nat) (position : Int) (w : Widget) : Option Widget :=
  setTextCursor RVA_INVALID fuel position w

/-- An offset change made elsewhere in the host: the host offset takes the new
value and the host delivers its notification to the slot `seekChanged`. -/
def offsetChanged (RVA_INVALID : Nat) (fuel : Nat) (offset : Nat) (w : Widget) : Option Widget :=
  seekChanged RVA_INVALID fuel { w with coreOffset := offset }

/-- A notification from one of the two collaborators. -/
inductive Notification where
  | caret (position : Int)
  | offset (addr : Nat)
  deriving DecidableEq, Repr

/-- Processes a sequence of notifications one after the other, each with nesting
bound `fuel`. -/
def deliver (RVA_INVALID : Nat) (fuel : Nat) : List Notification → Widget → Option Widget
  | [], w => some w
  | Notification.caret position :: rest, w =>
    match caretMoved RVA_INVALID fuel position w with
    | none => none
    | some w1 => deliver RVA_INVALID fuel rest w1
  | Notification.offset addr :: rest, w =>
    match offsetChanged RVA_INVALID fuel addr w with
    | none => none
    | some w1 => deliver RVA_INVALID fuel rest w1

/-- The text widget operation `setPlainText`: the document becomes `text`, the
caret goes to position 0 and the widget emits `cursorPositionChanged`, which
runs the slot if it is connected. -/
def setPlainText (RVA_INVALID : Nat) (fuel : Nat) (text : QString) (w : Widget) : Option Widget :=
  let w1 := { w with plainText := text, textCursor := 0 }
  if w.connected = true then cursorPositionChanged RVA_INVALID fuel w1
  else some w1

/-- The call `ui->textEdit->document()->clear()`: the document becomes empty and
the caret goes to position 0. -/
def documentClear (w : Widget) : Widget :=
  { w with plainText := "", textCursor := 0 }

/-- The call `cursor.insertText(text)` of a document cursor at position
`cursor`, for a `text` in which a line terminator stands at most at the end (the
text widget takes one position per UTF-16 code unit of such a text): `text`
enters the document at that position, and the caret of the widget, when it is
at or after that position, moves forward by the size of `text`. The result
pairs the new state with the new position of `cursor`, which is the old one
plus the size of `text`. -/
def insertText (cursor : Int) (text : QString) (w : Widget) : Widget × Int :=
  ({ w with
      plainText :=
        String.mk (QString.splitUnits w.plainText.data cursor.toNat).1 ++ text
          ++ String.mk (QString.splitUnits w.plainText.data cursor.toNat).2,
      textCursor :=
        if cursor ≤ w.textCursor then w.textCursor + QString.size text else w.textCursor },
    cursor + QString.size text)

/-- The `for` loop of `DecompilerWidget::doRefresh` over the lines of the
decompilation result: `cursor` is the position of the local document cursor;
each line is appended to `textLines` with `cursor.position()` and then written
into the document followed by a line terminator. -/
def doRefresh.loop : List DecompiledCode.Line → Int → Widget → Widget
  | [], _, w => w
  | line :: rest, cursor, w =>
    let w1 := { w with textLines := w.textLines ++ [⟨cursor, line⟩] }
    let r := insertText cursor (line.str ++ "\n") w1
    doRefresh.loop rest r.2 r.1

/-- The function `DecompilerWidget::doRefresh`. `dec` is the selected
decompiler (`none` when the combo box has no current entry or no decompiler has
the selected id), given by its function `decompileAt`; `tr` and
`RAddressString` are the translation and address formatting helpers of the
host. The local document cursor starts at position 0 of the cleared document. -/
def doRefresh (RVA_INVALID : Nat) (tr : QString → QString) (RAddressString : Nat → QString)
    (dec : Option (Nat → List DecompiledCode.Line)) (fuel : Nat) (addr : Nat) (w : Widget) :
    Option Widget :=
  match dec with
  | none => some w
  | some decompileAt =>
    if addr = RVA_INVALID then
      setPlainText RVA_INVALID fuel (tr "Click Refresh to decompile from current offset.") w
    else
      let decompiledCode := decompileAt addr
      let w1 := { w with textLines := [] }
      if decompiledCode.isEmpty then
        setPlainText RVA_INVALID fuel
          (tr "Cannot decompile at" ++ " " ++ RAddressString addr ++ " " ++ tr "(Not a function?)") w1
      else
        let w2 := connectCursorPositionChanged true w1
        let w3 := documentClear w2
        let w4 := doRefresh.loop decompiledCode 0 w3
        let w5 := connectCursorPositionChanged false w4
        seekChanged RVA_INVALID fuel w5

/-- The widget right after construction with no decompiler registered: no
lines, the guard clear, the document set to the message of the constructor with
the caret at 0, the slot connected. -/
def idle (offset : Nat) : Widget :=
  { textLines := [], seekFromCursor := false, plainText := "No Decompiler available.",
    textCursor := 0,
    connected := true, extraSelections := [], coreOffset := offset, seeks := [] }

/-- The three lines of `docTie` as a decompilation result. -/
def linesTie : List DecompiledCode.Line :=
  [⟨"a = 1;", 5⟩, ⟨"b++;", 5⟩, ⟨"b = 2;", 7⟩]

/-- A result of two lines whose first text is the single character U+1F600,
which takes two UTF-16 code units. -/
def linesWide : List DecompiledCode.Line :=
  [⟨String.singleton (Char.ofNat 128512), 5⟩, ⟨"x", 7⟩]

/-- The scan of `findLineByOffset` for `offset` stops at the iterator `k`: no
line before `k` has a valid address greater than `offset`, and `k` is either
`end()` or a line with a valid address greater than `offset`. -/
def StopsAt (RVA_INVALID : Nat) (textLines : List DecompiledCodeTextLine) (offset : Nat)
    (k : Nat) : Prop :=
  k ≤ textLines.length ∧
    (∀ j, j < k →
      ¬ (addrAt RVA_INVALID textLines j ≠ RVA_INVALID ∧ addrAt RVA_INVALID textLines j > offset)) ∧
    (k < textLines.length →
      addrAt RVA_INVALID textLines k ≠ RVA_INVALID ∧ addrAt RVA_INVALID textLines k > offset)

/-- The valid addresses of `textLines` are non-decreasing in document order. -/
def NonDecreasing (RVA_INVALID : Nat) (textLines : List DecompiledCodeTextLine) : Prop :=
  ∀ j, j < textLines.length → ∀ i, i < j →
    addrAt RVA_INVALID textLines i ≠ RVA_INVALID → addrAt RVA_INVALID textLines j ≠ RVA_INVALID →
    addrAt RVA_INVALID textLines i ≤ addrAt RVA_INVALID textLines j

/-- A two-line document in which no line has an address. -/
def docNoAddress : List DecompiledCodeTextLine :=
  [⟨0, ⟨"int main()", UT64_MAX⟩⟩, ⟨11, ⟨"return;", UT64_MAX⟩⟩]

/-- A document whose first line has no address and whose second line has
address 7. -/
def docHeader : List DecompiledCodeTextLine :=
  [⟨0, ⟨"int main()", UT64_MAX⟩⟩, ⟨11, ⟨"return;", 7⟩⟩]

/-- The widget showing `docTie` with the host offset at 5 and the caret on the
third line. -/
def widgetTie : Widget :=
  { textLines := docTie, seekFromCursor := false, plainText := "a = 1;\nb++;\nb = 2;\n",
    textCursor := 12, connected := true, extraSelections := [], coreOffset := 5, seeks := [] }

/-- The positions of `textLines` are strictly increasing in document order. -/
def StrictlyIncreasing (textLines : List DecompiledCodeTextLine) : Prop :=
  ∀ j, j < textLines.length → ∀ i, i < j → positionAt textLines i < positionAt textLines j

/-- The records that the loop of `doRefresh` appends to `textLines` for the
given lines when the document cursor starts at `cursor`: the loop without the
text widget. -/
def doRefresh.records : List DecompiledCode.Line → Int → List DecompiledCodeTextLine
  | [], _ => []
  | line :: rest, cursor =>
    ⟨cursor, line⟩ :: doRefresh.records rest (cursor + QString.size (line.str ++ "\n"))

/-- A document with addresses 5, none, 5, 7. -/
def docGap : List DecompiledCodeTextLine :=
  [⟨0, ⟨"x = 1;", 5⟩⟩, ⟨7, ⟨"else", UT64_MAX⟩⟩, ⟨12, ⟨"y = 2;", 5⟩⟩, ⟨19, ⟨"z = 3;", 7⟩⟩]

/-- The widget showing `docGap` with the caret at the start of the first line. -/
def widgetGap : Widget :=
  { textLines := docGap, seekFromCursor := false, plainText := "x = 1;\nelse\ny = 2;\nz = 3;\n",
    textCursor := 0, connected := true, extraSelections := [], coreOffset := 5, seeks := [] }

/-- The loop of `findLineByOffset` with the dereference of `candidate` checked:
the same loop as `findLineByOffset.loop`, except that reading
`candidate->line.addr` at an iterator that is not a line of `textLines` gives
`none`. -/
def findLineByOffset.checked (RVA_INVALID : Nat) (textLines : List DecompiledCodeTextLine)
    (offset : Nat) : List DecompiledCodeTextLine → Nat → Nat → Option Nat
  | [], _, candidate => some candidate
  | l :: rest, it, candidate =>
    let lineOffset := l.line.addr
    if lineOffset ≠ RVA_INVALID ∧ lineOffset > offset then
      some candidate
    else
      match textLines[candidate]? with
      | none => none
      | some c =>
        if c.line.addr = RVA_INVALID ∨ (lineOffset ≠ RVA_INVALID ∧ lineOffset > c.line.addr) then
          findLineByOffset.checked RVA_INVALID textLines offset rest (it + 1) it
        else
          findLineByOffset.checked RVA_INVALID textLines offset rest (it + 1) candidate

/-- The backward walk of `updateCursorPosition` with the dereferences of `prev`
and `it` checked: the same walk as `updateCursorPosition.loop`, except that
reading the address at an iterator that is not a line of `textLines` gives
`none`. -/
def updateCursorPosition.checked (textLines : List DecompiledCodeTextLine) : Nat → Option Nat
  | 0 => some 0
  | prev + 1 =>
    match textLines[prev]?, textLines[prev + 1]? with
    | some a, some b =>
      if a.line.addr ≠ b.line.addr then some (prev + 1)
      else updateCursorPosition.checked textLines prev
    | _, _ => none

/-- The widget showing `docTie` with the caret on the first line, while the
host offset is 7. -/
def widgetBehind : Widget :=
  { textLines := docTie, seekFromCursor := false, plainText := "a = 1;\nb++;\nb = 2;\n",
    textCursor := 3, connected := true, extraSelections := [], coreOffset := 7, seeks := [] }

/-- The candidate `c` is the best line of the scanned lines `0 .. n-1` when
addresses are read by `f`: either no scanned line has an address and `c` is the
last of them, or `c` is the first scanned line carrying the greatest valid
address. -/
def Best (inv : Nat) (f : Nat → Nat) (n c : Nat) : Prop :=
  c < n ∧
    ((f c = inv ∧ c + 1 = n ∧ ∀ j, j < n → f j = inv) ∨
     (f c ≠ inv ∧ (∀ j, j < n → f j ≠ inv → f j ≤ f c) ∧ (∀ j, j < c → f j ≠ inv → f j < f c)))

/-! ## The candidate invariant of `findLineByOffset` -/

theorem Best.init (inv : Nat) (f : Nat → Nat) : Best inv f 1 0 := by
  refine ⟨by omega, ?_⟩
  by_cases h : f 0 = inv
  · left
    refine ⟨h, rfl, ?_⟩
    intro j hj
    have : j = 0 := by omega
    subst this; exact h
  · right
    refine ⟨h, ?_, ?_⟩
    · intro j hj _
      have : j = 0 := by omega
      subst this; exact le_refl _
    · intro j hj; omega

theorem Best.move (inv : Nat) (f : Nat → Nat) (n c : Nat) (hB : Best inv f n c)
    (hm : f c = inv ∨ (f n ≠ inv ∧ f n > f c)) : Best inv f (n + 1) n := by
  obtain ⟨hc, hB⟩ := hB
  refine ⟨by omega, ?_⟩
  by_cases hn : f n = inv
  · left
    have hci : f c = inv := by
      rcases hm with h | h
      · exact h
      · exact absurd hn h.1
    rcases hB with ⟨_, _, hall⟩ | ⟨hv, _, _⟩
    · refine ⟨hn, rfl, ?_⟩
      intro j hj
      rcases Nat.lt_succ_iff_lt_or_eq.mp hj with h | h
      · exact hall j h
      · subst h; exact hn
    · exact absurd hci hv
  · right
    have key : ∀ j, j < n → f j ≠ inv → f j < f n := by
      intro j hj hjv
      rcases hB with ⟨_, _, hall⟩ | ⟨hv, hmax, _⟩
      · exact absurd (hall j hj) hjv
      · rcases hm with h | h
        · exact absurd h hv
        · have := hmax j hj hjv
          omega
    refine ⟨hn, ?_, key⟩
    intro j hj hjv
    rcases Nat.lt_succ_iff_lt_or_eq.mp hj with h | h
    · exact Nat.le_of_lt (key j h hjv)
    · subst h; exact le_refl _

theorem Best.keep (inv : Nat) (f : Nat → Nat) (n c : Nat) (hB : Best inv f n c)
    (hk : ¬ (f c = inv ∨ (f n ≠ inv ∧ f n > f c))) : Best inv f (n + 1) c := by
  obtain ⟨hc, hB⟩ := hB
  have hcv : f c ≠ inv := fun h => hk (Or.inl h)
  refine ⟨by omega, Or.inr ?_⟩
  rcases hB with ⟨hci, _, _⟩ | ⟨_, hmax, hfirst⟩
  · exact absurd hci hcv
  · refine ⟨hcv, ?_, hfirst⟩
    intro j hj hjv
    rcases Nat.lt_succ_iff_lt_or_eq.mp hj with h | h
    · exact hmax j h hjv
    · subst h
      by_contra hlt
      exact hk (Or.inr ⟨hjv, by omega⟩)

theorem drop_cons_step {α : Type} (xs : List α) (it : Nat) (l : α) (rest : List α)
    (h : xs.drop it = l :: rest) : xs[it]? = some l ∧ xs.drop (it + 1) = rest := by
  constructor
  · have := congrArg List.head? h
    simpa [List.head?_drop] using this
  · have := congrArg List.tail h
    simpa [List.tail_drop] using this

theorem addrAt_of_getElem? (inv : Nat) (tl : List DecompiledCodeTextLine) (it : Nat)
    (l : DecompiledCodeTextLine) (h : tl[it]? = some l) : addrAt inv tl it = l.line.addr := by
  simp [addrAt, h]

theorem findLineByOffset_loop_spec (inv : Nat) (tl : List DecompiledCodeTextLine) (offset : Nat) :
    ∀ (rest : List DecompiledCodeTextLine) (it c : Nat), tl.drop it = rest → it ≤ tl.length →
      (it = 0 → c = 0) → (0 < it → Best inv (addrAt inv tl) it c) →
      (∀ j, j < it → ¬ (addrAt inv tl j ≠ inv ∧ addrAt inv tl j > offset)) →
      ∃ k, it ≤ k ∧ StopsAt inv tl offset k ∧
        (k = 0 → findLineByOffset.loop inv tl offset rest it c = 0) ∧
        (0 < k → Best inv (addrAt inv tl) k (findLineByOffset.loop inv tl offset rest it c)) := by
  intro rest
  induction rest with
  | nil =>
    intro it c hdrop hle h0 hB hscan
    have hlen : tl.length ≤ it := List.drop_eq_nil_iff.mp hdrop
    refine ⟨it, le_refl _, ⟨hle, hscan, fun h => by omega⟩, ?_, ?_⟩
    · intro hk; simpa [findLineByOffset.loop] using h0 hk
    · intro hk; simpa [findLineByOffset.loop] using hB hk
  | cons l rest ih =>
    intro it c hdrop hle h0 hB hscan
    obtain ⟨hget, hdrop1⟩ := drop_cons_step tl it l rest hdrop
    have haddr : addrAt inv tl it = l.line.addr := addrAt_of_getElem? inv tl it l hget
    have hlt : it < tl.length := by
      by_contra hcon
      have : tl.drop it = [] := List.drop_eq_nil_iff.mpr (by omega)
      rw [this] at hdrop
      exact List.noConfusion hdrop
    by_cases hbreak : l.line.addr ≠ inv ∧ l.line.addr > offset
    · have hstep : findLineByOffset.loop inv tl offset (l :: rest) it c = c := by
        rw [findLineByOffset.loop]; exact if_pos hbreak
      refine ⟨it, le_refl _, ⟨hle, hscan, fun _ => by rw [haddr]; exact hbreak⟩, ?_, ?_⟩
      · intro hk; rw [hstep]; exact h0 hk
      · intro hk; rw [hstep]; exact hB hk
    · have hscan1 : ∀ j, j < it + 1 →
          ¬ (addrAt inv tl j ≠ inv ∧ addrAt inv tl j > offset) := by
        intro j hj
        rcases Nat.lt_succ_iff_lt_or_eq.mp hj with h | h
        · exact hscan j h
        · subst h; rw [haddr]; exact hbreak
      by_cases hmove : addrAt inv tl c = inv ∨ (l.line.addr ≠ inv ∧ l.line.addr > addrAt inv tl c)
      · have hstep : findLineByOffset.loop inv tl offset (l :: rest) it c
            = findLineByOffset.loop inv tl offset rest (it + 1) it := by
          rw [findLineByOffset.loop]; exact (if_neg hbreak).trans (if_pos hmove)
        have hB1 : Best inv (addrAt inv tl) (it + 1) it := by
          rcases Nat.eq_zero_or_pos it with hz | hp
          · subst hz; exact Best.init inv _
          · exact Best.move inv _ it c (hB hp) (by rw [haddr]; exact hmove)
        obtain ⟨k, hk, hstop, _, hbest⟩ :=
          ih (it + 1) it hdrop1 (by omega) (by omega) (fun _ => hB1) hscan1
        refine ⟨k, by omega, hstop, fun h => by omega, ?_⟩
        intro hk0; rw [hstep]; exact hbest hk0
      · have hstep : findLineByOffset.loop inv tl offset (l :: rest) it c
            = findLineByOffset.loop inv tl offset rest (it + 1) c := by
          rw [findLineByOffset.loop]; exact (if_neg hbreak).trans (if_neg hmove)
        have hB1 : Best inv (addrAt inv tl) (it + 1) c := by
          rcases Nat.eq_zero_or_pos it with hz | hp
          · subst hz; rw [h0 rfl]; exact Best.init inv _
          · exact Best.keep inv _ it c (hB hp) (by rw [haddr]; exact hmove)
        obtain ⟨k, hk, hstop, _, hbest⟩ :=
          ih (it + 1) c hdrop1 (by omega) (by omega) (fun _ => hB1) hscan1
        refine ⟨k, by omega, hstop, fun h => by omega, ?_⟩
        intro hk0; rw [hstep]; exact hbest hk0

/-- The result of `findLineByOffset`: with `k` the iterator at which the scan
stops, the result is `begin()` when `k` is `begin()` and otherwise the best
line of the scanned lines. -/
theorem findLineByOffset_spec (inv : Nat) (tl : List DecompiledCodeTextLine) (offset : Nat) :
    ∃ k, StopsAt inv tl offset k ∧
      (k = 0 → findLineByOffset inv tl offset = 0) ∧
      (0 < k → Best inv (addrAt inv tl) k (findLineByOffset inv tl offset)) := by
  obtain ⟨k, _, hstop, h0, hB⟩ :=
    findLineByOffset_loop_spec inv tl offset tl 0 0 (by simp) (by omega) (fun _ => rfl)
      (fun h => by omega) (fun j hj => by omega)
  exact ⟨k, hstop, h0, hB⟩

theorem addrAt_of_length_le (inv : Nat) (tl : List DecompiledCodeTextLine) (j : Nat)
    (h : tl.length ≤ j) : addrAt inv tl j = inv := by
  simp [addrAt, List.getElem?_eq_none h]

theorem findLineByOffset_lt_length (inv : Nat) (tl : List DecompiledCodeTextLine) (offset : Nat)
    (hne : tl ≠ []) : findLineByOffset inv tl offset < tl.length := by
  have hpos : 0 < tl.length := List.length_pos.mpr hne
  obtain ⟨k, hstop, h0, hB⟩ := findLineByOffset_spec inv tl offset
  rcases Nat.eq_zero_or_pos k with hk | hk
  · rw [h0 hk]; exact hpos
  · have := (hB hk).1
    have := hstop.1
    omega

/-- When a line carrying the valid address `a` is preceded by no line with a
greater valid address, `findLineByOffset` for `a` gives the earliest line
carrying `a`. -/
theorem findLineByOffset_earliest (inv : Nat) (tl : List DecompiledCodeTextLine) (a : Nat)
    (i : Nat) (ha : a ≠ inv) (hia : addrAt inv tl i = a)
    (hbefore : ∀ j, j < i → addrAt inv tl j ≠ inv → addrAt inv tl j ≤ a) :
    findLineByOffset inv tl a < tl.length ∧ addrAt inv tl (findLineByOffset inv tl a) = a ∧
      ∀ j, j < findLineByOffset inv tl a → addrAt inv tl j ≠ a := by
  have hi : i < tl.length := by
    by_contra hcon
    exact ha (by rw [← hia]; exact addrAt_of_length_le inv tl i (by omega))
  obtain ⟨k, hstop, _, hB⟩ := findLineByOffset_spec inv tl a
  obtain ⟨hkle, hscan, hstopk⟩ := hstop
  have hik : i < k := by
    by_contra hcon
    have hki : k ≤ i := by omega
    have hex := hstopk (by omega)
    rcases Nat.lt_or_eq_of_le hki with h | h
    · have := hbefore k h hex.1
      omega
    · rw [h, hia] at hex
      omega
  obtain ⟨hrk, hcase⟩ := hB (by omega)
  rcases hcase with ⟨_, _, hall⟩ | ⟨hv, hmax, hfirst⟩
  · exact absurd (hall i hik) (by rw [hia]; exact ha)
  · have h1 := hmax i hik (by rw [hia]; exact ha)
    have h2 := hscan _ hrk
    have h3 : addrAt inv tl (findLineByOffset inv tl a) ≤ a := by
      by_contra hcon
      exact h2 ⟨hv, by omega⟩
    rw [hia] at h1
    have heq : addrAt inv tl (findLineByOffset inv tl a) = a := by omega
    refine ⟨by omega, heq, ?_⟩
    intro j hj hja
    have := hfirst j hj (by rw [hja]; exact ha)
    omega

theorem updateCursorPosition.loop_stay (inv : Nat) (tl : List DecompiledCodeTextLine) (it : Nat)
    (h : ∀ j, j < it → addrAt inv tl j ≠ addrAt inv tl it) :
    updateCursorPosition.loop inv tl it = it := by
  cases it with
  | zero => rfl
  | succ n =>
    rw [updateCursorPosition.loop]
    exact if_pos (h n (by omega))

theorem updateCursorPosition.loop_all_equal (inv : Nat) (tl : List DecompiledCodeTextLine) (a : Nat) :
    ∀ it, (∀ j, j ≤ it → addrAt inv tl j = a) → updateCursorPosition.loop inv tl it = 0 := by
  intro it
  induction it with
  | zero => intro _; rfl
  | succ n ih =>
    intro h
    rw [updateCursorPosition.loop]
    have h1 : ¬ (addrAt inv tl n ≠ addrAt inv tl (n + 1)) := by
      rw [h n (by omega), h (n + 1) (by omega)]; simp
    rw [if_neg h1]
    exact ih (fun j hj => h j (by omega))

theorem setTextCursor_disconnected (inv : Nat) (fuel : Nat) (position : Int) (w : Widget)
    (h : w.connected = false) :
    setTextCursor inv (fuel + 1) position w = some { w with textCursor := position } := by
  simp [setTextCursor, h]

theorem updateCursorPosition_eq (inv : Nat) (fuel : Nat) (w : Widget) :
    updateCursorPosition inv (fuel + 2) w =
      some (if findLineByOffset inv w.textLines w.coreOffset ≠ w.textLines.length then
          connectCursorPositionChanged false (updateSelection inv
            { connectCursorPositionChanged true w with
              textCursor := positionAt w.textLines
                (updateCursorPosition.loop inv w.textLines
                  (findLineByOffset inv w.textLines w.coreOffset)) })
        else connectCursorPositionChanged false (connectCursorPositionChanged true w)) := by
  rw [updateCursorPosition]
  simp only [connectCursorPositionChanged]
  split
  · rw [setTextCursor_disconnected inv fuel _ _ (by simp)]
  · rfl

theorem updateSelection_fields (inv : Nat) (w : Widget) :
    (updateSelection inv w).textLines = w.textLines ∧
    (updateSelection inv w).seekFromCursor = w.seekFromCursor ∧
    (updateSelection inv w).plainText = w.plainText ∧
    (updateSelection inv w).textCursor = w.textCursor ∧
    (updateSelection inv w).connected = w.connected ∧
    (updateSelection inv w).coreOffset = w.coreOffset ∧
    (updateSelection inv w).seeks = w.seeks := by
  unfold updateSelection
  by_cases h : getOffsetAtLine inv w.textLines w.textCursor ≠ inv
  · simp only [if_pos h, and_self]
  · simp only [if_neg h, and_self]

/-! ## Lookup by address -/

/-- C1, as amended: for every document and every valid address `a` such that
some line carrying `a` is preceded by no line with a valid address greater than
`a` (which holds for every `a` present when the valid addresses are
non-decreasing), `findLineByOffset` for `a` returns a line of the document whose
address equals `a`, and no earlier line carries `a`. -/
theorem findLineByOffset_present_address (RVA_INVALID : Nat)
    (textLines : List DecompiledCodeTextLine) (a i : Nat) (ha : a ≠ RVA_INVALID)
    (hia : addrAt RVA_INVALID textLines i = a)
    (hbefore : ∀ j, j < i → addrAt RVA_INVALID textLines j ≠ RVA_INVALID →
      addrAt RVA_INVALID textLines j ≤ a) :
    findLineByOffset RVA_INVALID textLines a < textLines.length ∧
      addrAt RVA_INVALID textLines (findLineByOffset RVA_INVALID textLines a) = a ∧
      ∀ j, j < findLineByOffset RVA_INVALID textLines a → addrAt RVA_INVALID textLines j ≠ a :=
  findLineByOffset_earliest RVA_INVALID textLines a i ha hia hbefore

/-- Witness of C1 as amended: `docTie` with the address 5 of its second line. -/
theorem findLineByOffset_present_address_witness :
    (5 ≠ UT64_MAX ∧ addrAt UT64_MAX docTie 1 = 5 ∧
      ∀ j, j < 1 → addrAt UT64_MAX docTie j ≠ UT64_MAX → addrAt UT64_MAX docTie j ≤ 5) ∧
    (findLineByOffset UT64_MAX docTie 5 < docTie.length ∧
      addrAt UT64_MAX docTie (findLineByOffset UT64_MAX docTie 5) = 5 ∧
      ∀ j, j < findLineByOffset UT64_MAX docTie 5 → addrAt UT64_MAX docTie j ≠ 5) :=
  ⟨by decide,
    findLineByOffset_present_address UT64_MAX docTie 5 1 (by decide) (by decide) (by decide)⟩

/-- C1 fails as stated: in `docDecreasing` (addresses 7, 5) the address 5 is the
valid address of the second line, yet `findLineByOffset` for 5 returns the first
line, whose valid address 7 is greater than 5. -/
theorem findLineByOffset_greater_address_counterexample :
    addrAt UT64_MAX docDecreasing 1 = 5 ∧ 5 ≠ UT64_MAX ∧
      findLineByOffset UT64_MAX docDecreasing 5 = 0 ∧
      addrAt UT64_MAX docDecreasing (findLineByOffset UT64_MAX docDecreasing 5) = 7 ∧
      addrAt UT64_MAX docDecreasing (findLineByOffset UT64_MAX docDecreasing 5) ≠ UT64_MAX ∧
      ¬ (addrAt UT64_MAX docDecreasing (findLineByOffset UT64_MAX docDecreasing 5) ≤ 5) := by
  decide

/-- C2: for every document whose valid addresses are non-decreasing and every
valid host offset carried by at least one line (here line `m`),
`updateCursorPosition` returns, and it sets the caret to the position of the
earliest line whose address is the host offset. -/
theorem updateCursorPosition_earliest_line (RVA_INVALID : Nat) (w : Widget) (fuel m : Nat)
    (hfuel : 2 ≤ fuel) (ha : w.coreOffset ≠ RVA_INVALID)
    (hmono : NonDecreasing RVA_INVALID w.textLines)
    (hm : addrAt RVA_INVALID w.textLines m = w.coreOffset) :
    ∃ i w1, i < w.textLines.length ∧ addrAt RVA_INVALID w.textLines i = w.coreOffset ∧
      (∀ j, j < i → addrAt RVA_INVALID w.textLines j ≠ w.coreOffset) ∧
      updateCursorPosition RVA_INVALID fuel w = some w1 ∧
      w1.textCursor = positionAt w.textLines i := by
  have hmlt : m < w.textLines.length := by
    by_contra hcon
    exact ha (by rw [← hm]; exact addrAt_of_length_le RVA_INVALID _ m (by omega))
  obtain ⟨hlt, haddr, hfirst⟩ :=
    findLineByOffset_earliest RVA_INVALID w.textLines w.coreOffset m ha hm
      (fun j hj hjv => by
        have := hmono m hmlt j hj hjv (by rw [hm]; exact ha)
        rw [hm] at this
        exact this)
  obtain ⟨f, rfl⟩ : ∃ f, fuel = f + 2 := ⟨fuel - 2, by omega⟩
  refine ⟨findLineByOffset RVA_INVALID w.textLines w.coreOffset, _, hlt, haddr, hfirst,
    updateCursorPosition_eq RVA_INVALID f w, ?_⟩
  rw [if_pos (by omega)]
  rw [updateCursorPosition.loop_stay RVA_INVALID w.textLines _
    (fun j hj => by rw [haddr]; exact hfirst j hj)]
  simp [connectCursorPositionChanged, (updateSelection_fields RVA_INVALID _).2.2.2.1]

/-- Witness of C2: the document with addresses 5, 5, 7 and the host offset 5; the
caret lands at position 0, the start of the first line. -/
theorem updateCursorPosition_earliest_line_witness :
    (2 ≤ 2 ∧ widgetTie.coreOffset ≠ UT64_MAX ∧ NonDecreasing UT64_MAX widgetTie.textLines ∧
      addrAt UT64_MAX widgetTie.textLines 1 = widgetTie.coreOffset) ∧
    (∃ i w1, i < widgetTie.textLines.length ∧
      addrAt UT64_MAX widgetTie.textLines i = widgetTie.coreOffset ∧
      (∀ j, j < i → addrAt UT64_MAX widgetTie.textLines j ≠ widgetTie.coreOffset) ∧
      updateCursorPosition UT64_MAX 2 widgetTie = some w1 ∧
      w1.textCursor = positionAt widgetTie.textLines i) :=
  ⟨⟨by decide, by decide, by unfold NonDecreasing; decide, by decide⟩,
    updateCursorPosition_earliest_line UT64_MAX widgetTie 2 1 (by decide) (by decide)
      (by unfold NonDecreasing; decide) (by decide)⟩

/-- C9, as amended: for every document and every target address, if
`findLineByOffset` returns a line that has no address, then no line preceding
the iterator `k` at which the scan stops (the first line whose valid address
exceeds the target, or `end()`) has an address; in particular, when no line has
a valid address greater than the target, no line of the document has an
address. -/
theorem findLineByOffset_no_address (RVA_INVALID : Nat)
    (textLines : List DecompiledCodeTextLine) (offset : Nat)
    (hr : addrAt RVA_INVALID textLines (findLineByOffset RVA_INVALID textLines offset)
      = RVA_INVALID) :
    (∃ k, StopsAt RVA_INVALID textLines offset k ∧
      ∀ j, j < k → addrAt RVA_INVALID textLines j = RVA_INVALID) ∧
    ((∀ j, j < textLines.length →
        ¬ (addrAt RVA_INVALID textLines j ≠ RVA_INVALID ∧ addrAt RVA_INVALID textLines j > offset)) →
      ∀ j, j < textLines.length → addrAt RVA_INVALID textLines j = RVA_INVALID) := by
  obtain ⟨k, hstop, h0, hB⟩ := findLineByOffset_spec RVA_INVALID textLines offset
  have hall : ∀ j, j < k → addrAt RVA_INVALID textLines j = RVA_INVALID := by
    rcases Nat.eq_zero_or_pos k with hk | hk
    · intro j hj; omega
    · rcases (hB hk).2 with ⟨_, _, hall⟩ | ⟨hv, _, _⟩
      · exact hall
      · exact absurd hr hv
  refine ⟨⟨k, hstop, hall⟩, ?_⟩
  intro hnone j hj
  have hk : k = textLines.length := by
    by_contra hcon
    have hklt : k < textLines.length := lt_of_le_of_ne hstop.1 hcon
    exact hnone k hklt (hstop.2.2 hklt)
  exact hall j (by omega)

/-- Witness of C9 as amended: in `docHeader` the lookup of 5 returns the first
line, which has no address. -/
theorem findLineByOffset_no_address_witness :
    addrAt UT64_MAX docHeader (findLineByOffset UT64_MAX docHeader 5) = UT64_MAX ∧
    ((∃ k, StopsAt UT64_MAX docHeader 5 k ∧ ∀ j, j < k → addrAt UT64_MAX docHeader j = UT64_MAX) ∧
    ((∀ j, j < docHeader.length →
        ¬ (addrAt UT64_MAX docHeader j ≠ UT64_MAX ∧ addrAt UT64_MAX docHeader j > 5)) →
      ∀ j, j < docHeader.length → addrAt UT64_MAX docHeader j = UT64_MAX)) :=
  ⟨by decide, findLineByOffset_no_address UT64_MAX docHeader 5 (by decide)⟩

/-- C9 fails as stated: in the non-empty `docHeader` the lookup of 5 returns the
first line, which has no address, yet the second line has the address 7. -/
theorem findLineByOffset_no_address_counterexample :
    docHeader ≠ [] ∧
      addrAt UT64_MAX docHeader (findLineByOffset UT64_MAX docHeader 5) = UT64_MAX ∧
      ¬ (∀ j, j < docHeader.length → addrAt UT64_MAX docHeader j = UT64_MAX) := by
  decide

/-- C10, as amended: for every non-empty document in which no line has an
address and every target address, `findLineByOffset` returns the last line of
the document (a candidate without address is replaced by each following line);
the backward walk of `updateCursorPosition` then leads from it to the first
line. -/
theorem findLineByOffset_without_addresses (RVA_INVALID : Nat)
    (textLines : List DecompiledCodeTextLine) (offset : Nat) (hne : textLines ≠ [])
    (hall : ∀ j, j < textLines.length → addrAt RVA_INVALID textLines j = RVA_INVALID) :
    findLineByOffset RVA_INVALID textLines offset + 1 = textLines.length ∧
      updateCursorPosition.loop RVA_INVALID textLines
        (findLineByOffset RVA_INVALID textLines offset) = 0 := by
  have hpos : 0 < textLines.length := List.length_pos.mpr hne
  obtain ⟨k, hstop, _, hB⟩ := findLineByOffset_spec RVA_INVALID textLines offset
  have hk : k = textLines.length := by
    by_contra hcon
    have hklt : k < textLines.length := lt_of_le_of_ne hstop.1 hcon
    exact (hstop.2.2 hklt).1 (hall k hklt)
  subst hk
  obtain ⟨hlt, hcase⟩ := hB hpos
  have hlast : findLineByOffset RVA_INVALID textLines offset + 1 = textLines.length := by
    rcases hcase with ⟨_, h, _⟩ | ⟨hv, _, _⟩
    · exact h
    · exact absurd (hall _ hlt) hv
  refine ⟨hlast, ?_⟩
  exact updateCursorPosition.loop_all_equal RVA_INVALID textLines RVA_INVALID _
    (fun j hj => hall j (by omega))

/-- Witness of C10 as amended: `docNoAddress`, two lines without address. -/
theorem findLineByOffset_without_addresses_witness :
    (docNoAddress ≠ [] ∧
      ∀ j, j < docNoAddress.length → addrAt UT64_MAX docNoAddress j = UT64_MAX) ∧
    (findLineByOffset UT64_MAX docNoAddress 5 + 1 = docNoAddress.length ∧
      updateCursorPosition.loop UT64_MAX docNoAddress
        (findLineByOffset UT64_MAX docNoAddress 5) = 0) :=
  ⟨by decide,
    findLineByOffset_without_addresses UT64_MAX docNoAddress 5 (by decide) (by decide)⟩

/-- C10 fails as stated: in `docNoAddress`, a non-empty document in which no
line has an address, the lookup of 5 returns the second line, not the first. -/
theorem findLineByOffset_without_addresses_counterexample :
    docNoAddress ≠ [] ∧
      (∀ j, j < docNoAddress.length → addrAt UT64_MAX docNoAddress j = UT64_MAX) ∧
      findLineByOffset UT64_MAX docNoAddress 5 = 1 ∧
      findLineByOffset UT64_MAX docNoAddress 5 ≠ 0 := by
  decide

/-! ## Lookup by position -/

theorem positionAt_of_getElem? (tl : List DecompiledCodeTextLine) (it : Nat)
    (l : DecompiledCodeTextLine) (h : tl[it]? = some l) : positionAt tl it = l.position := by
  simp [positionAt, h]

theorem StrictlyIncreasing.le (tl : List DecompiledCodeTextLine) (hs : StrictlyIncreasing tl)
    (i j : Nat) (hij : i ≤ j) (hj : j < tl.length) : positionAt tl i ≤ positionAt tl j := by
  rcases Nat.lt_or_eq_of_le hij with h | h
  · exact le_of_lt (hs j hj i h)
  · subst h; exact le_refl _

/-- The invariant of the binary search of `findLine` on strictly increasing
positions: lines left of the range are not after `p`, lines right of it are. -/
theorem findLine_loop_spec (tl : List DecompiledCodeTextLine) (p : Int)
    (hs : StrictlyIncreasing tl) :
    ∀ (fuel first len : Nat), len ≤ fuel → first + len ≤ tl.length →
      (∀ j, j < first → positionAt tl j ≤ p) →
      (∀ j, first + len ≤ j → j < tl.length → p < positionAt tl j) →
      (∀ j, j < upper_bound.loop tl p (fun pos line => decide (pos < line.position)) fuel first len →
          positionAt tl j ≤ p) ∧
        (∀ j, upper_bound.loop tl p (fun pos line => decide (pos < line.position)) fuel first len ≤ j →
          j < tl.length → p < positionAt tl j) ∧
        upper_bound.loop tl p (fun pos line => decide (pos < line.position)) fuel first len
          ≤ tl.length := by
  intro fuel
  induction fuel with
  | zero =>
    intro first len hlen hbound hleft hright
    have h0 : len = 0 := by omega
    subst h0
    simp only [upper_bound.loop]
    exact ⟨hleft, fun j hj hjl => hright j (by omega) hjl, by omega⟩
  | succ fuel ih =>
    intro first len hlen hbound hleft hright
    by_cases h0 : len = 0
    · subst h0
      simp only [upper_bound.loop, if_true]
      exact ⟨hleft, fun j hj hjl => hright j (by omega) hjl, by omega⟩
    · have hhalf : len / 2 < len := Nat.div_lt_self (by omega) (by omega)
      have hmid : first + len / 2 < tl.length := by omega
      have hget : tl[first + len / 2]? = some (tl.get ⟨first + len / 2, hmid⟩) := by
        simp [List.getElem?_eq_getElem hmid]
      have hpos := positionAt_of_getElem? tl _ _ hget
      by_cases hc : p < (tl.get ⟨first + len / 2, hmid⟩).position
      · have hstep : upper_bound.loop tl p (fun pos line => decide (pos < line.position))
            (fuel + 1) first len
            = upper_bound.loop tl p (fun pos line => decide (pos < line.position))
              fuel first (len / 2) := by
          rw [upper_bound.loop]
          simp only [if_neg h0, hget, hc, decide_True, if_true]
        rw [hstep]
        apply ih first (len / 2) (by omega) (by omega) hleft
        intro j hj hjl
        have := StrictlyIncreasing.le tl hs (first + len / 2) j hj hjl
        rw [hpos] at this
        omega
      · have hstep : upper_bound.loop tl p (fun pos line => decide (pos < line.position))
            (fuel + 1) first len
            = upper_bound.loop tl p (fun pos line => decide (pos < line.position))
              fuel (first + len / 2 + 1) (len - len / 2 - 1) := by
          rw [upper_bound.loop]
          simp only [if_neg h0, hget, hc, decide_False]
          rfl
        rw [hstep]
        apply ih (first + len / 2 + 1) (len - len / 2 - 1) (by omega) (by omega)
        · intro j hj
          have := StrictlyIncreasing.le tl hs j (first + len / 2) (by omega) hmid
          rw [hpos] at this
          omega
        · intro j hj hjl
          exact hright j (by omega) hjl

/-- On strictly increasing positions `findLine` gives the first line whose
position exceeds `p`, or `end()`. -/
theorem findLine_first_after (tl : List DecompiledCodeTextLine) (p : Int)
    (hs : StrictlyIncreasing tl) :
    findLine tl p ≤ tl.length ∧ (∀ j, j < findLine tl p → positionAt tl j ≤ p) ∧
      (∀ j, findLine tl p ≤ j → j < tl.length → p < positionAt tl j) := by
  obtain ⟨h1, h2, h3⟩ := findLine_loop_spec tl p hs tl.length 0 tl.length (le_refl _) (by omega)
    (fun j hj => by omega) (fun j hj hjl => by omega)
  exact ⟨h3, h1, h2⟩

/-- On strictly increasing positions, a line that starts at or before `p` and
whose successor, if any, starts after `p` is the line one step before
`findLine p`. -/
theorem findLine_unique (tl : List DecompiledCodeTextLine) (p : Int)
    (hs : StrictlyIncreasing tl) (i : Nat) (hi : i < tl.length) (hle : positionAt tl i ≤ p)
    (hnext : i + 1 = tl.length ∨ p < positionAt tl (i + 1)) :
    0 < findLine tl p ∧ i = findLine tl p - 1 := by
  obtain ⟨hk, hbefore, hafter⟩ := findLine_first_after tl p hs
  have h1 : i < findLine tl p := by
    by_contra hcon
    have := hafter i (by omega) hi
    omega
  refine ⟨by omega, ?_⟩
  by_contra hcon
  have h2 : i + 1 < findLine tl p := by omega
  have h3 := hbefore (i + 1) h2
  rcases hnext with h | h
  · omega
  · omega

/-- C4: for every line list with strictly increasing positions and every
position `p`, `findLine p` is the first line whose position exceeds `p`, or
`end()` if there is none; if the list is non-empty and `p` is not less than the
position of the first line, the line one step before `findLine p` starts at or
before `p`, is the last line or is followed by a line starting after `p`, and is
the only line with these two properties; if the list is empty or `p` is less
than the position of the first line, `findLine p` is `begin()` and
`getOffsetAtLine` returns `RVA_INVALID`. -/
theorem findLine_lineAt (RVA_INVALID : Nat) (textLines : List DecompiledCodeTextLine) (p : Int)
    (hs : StrictlyIncreasing textLines) :
    (findLine textLines p ≤ textLines.length ∧
      (∀ j, j < findLine textLines p → ¬ (p < positionAt textLines j)) ∧
      (findLine textLines p < textLines.length →
        p < positionAt textLines (findLine textLines p))) ∧
    (textLines ≠ [] → positionAt textLines 0 ≤ p →
      0 < findLine textLines p ∧
      positionAt textLines (findLine textLines p - 1) ≤ p ∧
      (findLine textLines p - 1 + 1 = textLines.length ∨
        p < positionAt textLines (findLine textLines p - 1 + 1)) ∧
      ∀ i, i < textLines.length → positionAt textLines i ≤ p →
        (i + 1 = textLines.length ∨ p < positionAt textLines (i + 1)) →
        i = findLine textLines p - 1) ∧
    (textLines = [] ∨ p < positionAt textLines 0 →
      findLine textLines p = 0 ∧ getOffsetAtLine RVA_INVALID textLines p = RVA_INVALID) := by
  obtain ⟨hk, hbefore, hafter⟩ := findLine_first_after textLines p hs
  refine ⟨⟨hk, fun j hj => not_lt.mpr (hbefore j hj), fun h => hafter _ (le_refl _) h⟩, ?_, ?_⟩
  · intro hne h0
    have hpos : 0 < textLines.length := List.length_pos.mpr hne
    have hk0 : 0 < findLine textLines p := by
      by_contra hcon
      have := hafter 0 (by omega) hpos
      omega
    refine ⟨hk0, hbefore _ (by omega), ?_, ?_⟩
    · have heq : findLine textLines p - 1 + 1 = findLine textLines p := by omega
      rw [heq]
      rcases Nat.lt_or_eq_of_le hk with h | h
      · exact Or.inr (hafter _ (le_refl _) h)
      · exact Or.inl h
    · intro i hi hle hnext
      exact (findLine_unique textLines p hs i hi hle hnext).2
  · intro h
    have hk0 : findLine textLines p = 0 := by
      rcases h with h | h
      · subst h; rfl
      · by_contra hcon
        have := hbefore 0 (by omega)
        omega
    refine ⟨hk0, ?_⟩
    unfold getOffsetAtLine
    simp only [hk0, if_true]

/-- Witness of C4: `docTie` and the position 8, inside its second line. -/
theorem findLine_lineAt_witness :
    StrictlyIncreasing docTie ∧
    ((findLine docTie 8 ≤ docTie.length ∧
      (∀ j, j < findLine docTie 8 → ¬ (8 < positionAt docTie j)) ∧
      (findLine docTie 8 < docTie.length → 8 < positionAt docTie (findLine docTie 8))) ∧
    (docTie ≠ [] → positionAt docTie 0 ≤ 8 →
      0 < findLine docTie 8 ∧
      positionAt docTie (findLine docTie 8 - 1) ≤ 8 ∧
      (findLine docTie 8 - 1 + 1 = docTie.length ∨
        8 < positionAt docTie (findLine docTie 8 - 1 + 1)) ∧
      ∀ i, i < docTie.length → positionAt docTie i ≤ 8 →
        (i + 1 = docTie.length ∨ 8 < positionAt docTie (i + 1)) →
        i = findLine docTie 8 - 1) ∧
    (docTie = [] ∨ 8 < positionAt docTie 0 →
      findLine docTie 8 = 0 ∧ getOffsetAtLine UT64_MAX docTie 8 = UT64_MAX)) :=
  ⟨by unfold StrictlyIncreasing; decide,
    findLine_lineAt UT64_MAX docTie 8 (by unfold StrictlyIncreasing; decide)⟩

/-- C5: for every line list with strictly increasing positions and every valid
position `p` (the list is non-empty and `p` is not less than the position of
the first line), the line one step before `findLine p` is a line of the list,
and resolving its position again gives the same line. -/
theorem findLine_idempotent (textLines : List DecompiledCodeTextLine) (p : Int)
    (hs : StrictlyIncreasing textLines) (hne : textLines ≠ [])
    (hp : positionAt textLines 0 ≤ p) :
    0 < findLine textLines p ∧ findLine textLines p - 1 < textLines.length ∧
      0 < findLine textLines (positionAt textLines (findLine textLines p - 1)) ∧
      findLine textLines (positionAt textLines (findLine textLines p - 1)) - 1
        = findLine textLines p - 1 := by
  have hpos : 0 < textLines.length := List.length_pos.mpr hne
  obtain ⟨hk, hbefore, hafter⟩ := findLine_first_after textLines p hs
  have hk0 : 0 < findLine textLines p := by
    by_contra hcon
    have := hafter 0 (by omega) hpos
    omega
  have hlt : findLine textLines p - 1 < textLines.length := by omega
  have hnext : findLine textLines p - 1 + 1 = textLines.length ∨
      positionAt textLines (findLine textLines p - 1)
        < positionAt textLines (findLine textLines p - 1 + 1) := by
    by_cases h : findLine textLines p - 1 + 1 = textLines.length
    · exact Or.inl h
    · exact Or.inr (hs _ (by omega) _ (by omega))
  obtain ⟨h1, h2⟩ := findLine_unique textLines
    (positionAt textLines (findLine textLines p - 1)) hs _ hlt (le_refl _) hnext
  exact ⟨hk0, hlt, h1, h2.symm⟩

/-- Witness of C5: `docTie` and the position 8, which resolves to the second
line, as does the start 7 of that line. -/
theorem findLine_idempotent_witness :
    (StrictlyIncreasing docTie ∧ docTie ≠ [] ∧ positionAt docTie 0 ≤ 8) ∧
    (0 < findLine docTie 8 ∧ findLine docTie 8 - 1 < docTie.length ∧
      0 < findLine docTie (positionAt docTie (findLine docTie 8 - 1)) ∧
      findLine docTie (positionAt docTie (findLine docTie 8 - 1)) - 1
        = findLine docTie 8 - 1) :=
  ⟨⟨by unfold StrictlyIncreasing; decide, by decide, by decide⟩,
    findLine_idempotent docTie 8 (by unfold StrictlyIncreasing; decide) (by decide)
      (by decide)⟩

/-! ## The document builder -/

theorem doRefresh.loop_textLines :
    ∀ (lines : List DecompiledCode.Line) (cursor : Int) (w : Widget),
      (doRefresh.loop lines cursor w).textLines = w.textLines ++ doRefresh.records lines cursor := by
  intro lines
  induction lines with
  | nil => intro cursor w; simp [doRefresh.loop, doRefresh.records]
  | cons line rest ih =>
    intro cursor w
    rw [doRefresh.loop, doRefresh.records]
    simp only [insertText]
    rw [ih]
    simp

theorem doRefresh.records_length :
    ∀ (lines : List DecompiledCode.Line) (cursor : Int),
      (doRefresh.records lines cursor).length = lines.length := by
  intro lines
  induction lines with
  | nil => intro cursor; rfl
  | cons line rest ih => intro cursor; simp [doRefresh.records, ih]

theorem doRefresh.records_line :
    ∀ (lines : List DecompiledCode.Line) (cursor : Int),
      (doRefresh.records lines cursor).map (fun r => r.line) = lines := by
  intro lines
  induction lines with
  | nil => intro cursor; rfl
  | cons line rest ih => intro cursor; simp [doRefresh.records, ih]

theorem size_with_terminator (s : QString) :
    QString.size (s ++ "\n") = QString.size s + 1 := by
  unfold QString.size
  rw [String.data_append, List.map_append, List.sum_append]
  rfl

theorem doRefresh.records_first (lines : List DecompiledCode.Line) (cursor : Int)
    (hne : lines ≠ []) : positionAt (doRefresh.records lines cursor) 0 = cursor := by
  cases lines with
  | nil => exact absurd rfl hne
  | cons line rest => simp [doRefresh.records, positionAt]

theorem doRefresh.records_next :
    ∀ (lines : List DecompiledCode.Line) (cursor : Int) (i : Nat), i + 1 < lines.length →
      positionAt (doRefresh.records lines cursor) (i + 1)
        = positionAt (doRefresh.records lines cursor) i
          + QString.size (strAt (doRefresh.records lines cursor) i) + 1 := by
  intro lines
  induction lines with
  | nil => intro cursor i hi; simp at hi
  | cons line rest ih =>
    intro cursor i hi
    cases i with
    | zero =>
      have hne : rest ≠ [] := by
        intro h; subst h; simp at hi
      have h1 := doRefresh.records_first rest (cursor + QString.size (line.str ++ "\n")) hne
      simp only [doRefresh.records, positionAt, strAt, List.getElem?_cons_succ,
        List.getElem?_cons_zero] at h1 ⊢
      rw [h1, size_with_terminator]
      push_cast
      omega
    | succ n =>
      have h1 := ih (cursor + QString.size (line.str ++ "\n")) n (by simpa using hi)
      simp only [doRefresh.records, positionAt, strAt, List.getElem?_cons_succ] at h1 ⊢
      exact h1

theorem strictlyIncreasing_of_next (tl : List DecompiledCodeTextLine)
    (h : ∀ i, i + 1 < tl.length → positionAt tl i < positionAt tl (i + 1)) :
    StrictlyIncreasing tl := by
  intro j
  induction j with
  | zero => intro _ i hi; omega
  | succ n ih =>
    intro hj i hi
    have hstep := h n hj
    rcases Nat.lt_succ_iff_lt_or_eq.mp hi with hlt | heq
    · exact lt_trans (ih (by omega) i hlt) hstep
    · subst heq; exact hstep

theorem doRefresh.records_increasing (lines : List DecompiledCode.Line) (cursor : Int) :
    StrictlyIncreasing (doRefresh.records lines cursor) := by
  apply strictlyIncreasing_of_next
  intro i hi
  rw [doRefresh.records_length] at hi
  rw [doRefresh.records_next lines cursor i hi]
  omega

/-! ## The two directions of synchronisation -/

theorem updateCursorPosition_frame (inv : Nat) (fuel : Nat) (w : Widget) :
    ∃ w1, updateCursorPosition inv (fuel + 2) w = some w1 ∧ w1.textLines = w.textLines ∧
      w1.seekFromCursor = w.seekFromCursor ∧ w1.coreOffset = w.coreOffset ∧
      w1.seeks = w.seeks := by
  refine ⟨_, updateCursorPosition_eq inv fuel w, ?_⟩
  by_cases h : findLineByOffset inv w.textLines w.coreOffset ≠ w.textLines.length
  · rw [if_pos h]
    obtain ⟨h1, h2, _, _, _, h6, h7⟩ := updateSelection_fields inv
      { connectCursorPositionChanged true w with
        textCursor := positionAt w.textLines
          (updateCursorPosition.loop inv w.textLines
            (findLineByOffset inv w.textLines w.coreOffset)) }
    simp only [connectCursorPositionChanged] at h1 h2 h6 h7 ⊢
    exact ⟨h1, h2, h6, h7⟩
  · rw [if_neg h]
    simp [connectCursorPositionChanged]

theorem seekChanged_guarded (inv : Nat) (fuel : Nat) (w : Widget) (h : w.seekFromCursor = true) :
    seekChanged inv (fuel + 1) w = some w := by
  simp [seekChanged, h]

theorem seekChanged_frame (inv : Nat) (fuel : Nat) (w : Widget) :
    ∃ w1, seekChanged inv (fuel + 3) w = some w1 ∧ w1.textLines = w.textLines ∧
      w1.seekFromCursor = w.seekFromCursor ∧ w1.coreOffset = w.coreOffset ∧
      w1.seeks = w.seeks := by
  by_cases h : w.seekFromCursor = true
  · exact ⟨w, seekChanged_guarded inv (fuel + 2) w h, rfl, rfl, rfl, rfl⟩
  · obtain ⟨w1, h1, h2⟩ := updateCursorPosition_frame inv fuel w
    refine ⟨w1, ?_, h2⟩
    rw [seekChanged]
    simp only [h]
    exact h1

theorem cursorPositionChanged_eq (inv : Nat) (fuel : Nat) (w : Widget) :
    cursorPositionChanged inv (fuel + 3) w =
      some (updateSelection inv
        (if getOffsetAtLine inv w.textLines w.textCursor ≠ inv ∧
            getOffsetAtLine inv w.textLines w.textCursor ≠ w.coreOffset then
          { w with
            seekFromCursor := false,
            coreOffset := getOffsetAtLine inv w.textLines w.textCursor,
            seeks := getOffsetAtLine inv w.textLines w.textCursor :: w.seeks }
        else w)) := by
  rw [cursorPositionChanged]
  by_cases h : getOffsetAtLine inv w.textLines w.textCursor ≠ inv ∧
      getOffsetAtLine inv w.textLines w.textCursor ≠ w.coreOffset
  · simp only [if_pos h]
    rw [coreSeek, seekChanged_guarded inv fuel _ rfl]
  · simp only [if_neg h]

theorem cursorPositionChanged_frame (inv : Nat) (fuel : Nat) (w : Widget)
    (hw : w.seekFromCursor = false) :
    ∃ w1, cursorPositionChanged inv (fuel + 3) w = some w1 ∧ w1.textLines = w.textLines ∧
      w1.textCursor = w.textCursor ∧ w1.seekFromCursor = false := by
  refine ⟨_, cursorPositionChanged_eq inv fuel w, ?_⟩
  obtain ⟨h1, h2, _, h4, _⟩ := updateSelection_fields inv
    (if getOffsetAtLine inv w.textLines w.textCursor ≠ inv ∧
        getOffsetAtLine inv w.textLines w.textCursor ≠ w.coreOffset then
      { w with
        seekFromCursor := false,
        coreOffset := getOffsetAtLine inv w.textLines w.textCursor,
        seeks := getOffsetAtLine inv w.textLines w.textCursor :: w.seeks }
    else w)
  rw [h1, h2, h4]
  by_cases h : getOffsetAtLine inv w.textLines w.textCursor ≠ inv ∧
      getOffsetAtLine inv w.textLines w.textCursor ≠ w.coreOffset
  · simp only [if_pos h, and_self]
  · simp only [if_neg h, hw, and_self]

theorem caretMoved_frame (inv : Nat) (fuel : Nat) (position : Int) (w : Widget)
    (hw : w.seekFromCursor = false) :
    ∃ w1, caretMoved inv (fuel + 4) position w = some w1 ∧ w1.seekFromCursor = false := by
  unfold caretMoved
  rw [setTextCursor]
  by_cases h : w.connected = true ∧ position ≠ w.textCursor
  · simp only [if_pos h]
    obtain ⟨w1, h1, _, _, h4⟩ :=
      cursorPositionChanged_frame inv fuel { w with textCursor := position } hw
    exact ⟨w1, h1, h4⟩
  · simp only [if_neg h]
    exact ⟨_, rfl, hw⟩

theorem offsetChanged_frame (inv : Nat) (fuel : Nat) (offset : Nat) (w : Widget)
    (hw : w.seekFromCursor = false) :
    ∃ w1, offsetChanged inv (fuel + 4) offset w = some w1 ∧ w1.seekFromCursor = false := by
  unfold offsetChanged
  obtain ⟨w1, h1, _, h3, _⟩ := seekChanged_frame inv (fuel + 1) { w with coreOffset := offset }
  exact ⟨w1, h1, by rw [h3]; exact hw⟩

theorem deliver_frame (inv : Nat) (fuel : Nat) :
    ∀ (ns : List Notification) (w : Widget), w.seekFromCursor = false →
      ∃ w1, deliver inv (fuel + 4) ns w = some w1 ∧ w1.seekFromCursor = false := by
  intro ns
  induction ns with
  | nil => intro w hw; exact ⟨w, rfl, hw⟩
  | cons n rest ih =>
    intro w hw
    cases n with
    | caret position =>
      obtain ⟨w1, h1, h2⟩ := caretMoved_frame inv fuel position w hw
      obtain ⟨w2, h3, h4⟩ := ih w1 h2
      refine ⟨w2, ?_, h4⟩
      rw [deliver, h1]
      exact h3
    | offset addr =>
      obtain ⟨w1, h1, h2⟩ := offsetChanged_frame inv fuel addr w hw
      obtain ⟨w2, h3, h4⟩ := ih w1 h2
      refine ⟨w2, ?_, h4⟩
      rw [deliver, h1]
      exact h3

theorem doRefresh_textLines (inv : Nat) (tr : QString → QString) (RAddressString : Nat → QString)
    (decompileAt : Nat → List DecompiledCode.Line) (fuel addr : Nat) (w : Widget)
    (haddr : addr ≠ inv) (hne : decompileAt addr ≠ []) :
    ∃ w1, doRefresh inv tr RAddressString (some decompileAt) (fuel + 3) addr w = some w1 ∧
      w1.textLines = doRefresh.records (decompileAt addr) 0 := by
  have hempty : (decompileAt addr).isEmpty = false := by
    cases h : decompileAt addr with
    | nil => exact absurd h hne
    | cons a l => rfl
  obtain ⟨w1, h1, h2, _⟩ := seekChanged_frame inv fuel
    (connectCursorPositionChanged false (doRefresh.loop (decompileAt addr) 0
      (documentClear (connectCursorPositionChanged true { w with textLines := [] }))))
  refine ⟨w1, ?_, ?_⟩
  · unfold doRefresh
    simp only [if_neg haddr, hempty, Bool.false_eq_true, if_false]
    exact h1
  · rw [h2]
    simp [connectCursorPositionChanged, doRefresh.loop_textLines, documentClear]

/-- C6: for every non-empty decompilation result whose line texts hold no line
terminator, `doRefresh` returns and the positions it records are strictly
increasing across `textLines`: there is one record per line, the position of
the first line is 0, and the position of each following line is the position of
the line before it plus the size of that line's text, in UTF-16 code units,
plus 1. -/
theorem doRefresh_positions (RVA_INVALID : Nat) (tr : QString → QString)
    (RAddressString : Nat → QString) (decompileAt : Nat → List DecompiledCode.Line)
    (fuel addr : Nat) (w : Widget) (hfuel : 3 ≤ fuel) (haddr : addr ≠ RVA_INVALID)
    (_hterm : ∀ l, l ∈ decompileAt addr →
      ∀ c, c ∈ l.str.data → c ≠ Char.ofNat 10 ∧ c ≠ Char.ofNat 13)
    (hne : decompileAt addr ≠ []) :
    ∃ w1, doRefresh RVA_INVALID tr RAddressString (some decompileAt) fuel addr w = some w1 ∧
      w1.textLines.length = (decompileAt addr).length ∧
      positionAt w1.textLines 0 = 0 ∧
      (∀ i, i + 1 < w1.textLines.length →
        positionAt w1.textLines (i + 1)
          = positionAt w1.textLines i + QString.size (strAt w1.textLines i) + 1) ∧
      StrictlyIncreasing w1.textLines := by
  obtain ⟨f, rfl⟩ : ∃ f, fuel = f + 3 := ⟨fuel - 3, by omega⟩
  obtain ⟨w1, h1, h2⟩ := doRefresh_textLines RVA_INVALID tr RAddressString decompileAt f addr w
    haddr hne
  refine ⟨w1, h1, ?_, ?_, ?_, ?_⟩
  · rw [h2, doRefresh.records_length]
  · rw [h2, doRefresh.records_first _ _ hne]
  · intro i hi
    rw [h2] at hi ⊢
    rw [doRefresh.records_length] at hi
    exact doRefresh.records_next _ _ i hi
  · rw [h2]
    exact doRefresh.records_increasing _ _

/-- Witness of C6: the two lines of `linesWide`, built from the idle widget;
the first text has one character of two code units, so the records are at the
positions 0 and 3. -/
theorem doRefresh_positions_witness :
    (3 ≤ 3 ∧ 4096 ≠ UT64_MAX ∧
      (∀ l, l ∈ (fun _ => linesWide) 4096 →
        ∀ c, c ∈ l.str.data → c ≠ Char.ofNat 10 ∧ c ≠ Char.ofNat 13) ∧
      (fun _ => linesWide) 4096 ≠ []) ∧
    (∃ w1, doRefresh UT64_MAX id (fun _ => "0x1000") (some (fun _ => linesWide)) 3 4096 (idle 5)
        = some w1 ∧
      w1.textLines.length = ((fun _ => linesWide) 4096).length ∧
      positionAt w1.textLines 0 = 0 ∧
      (∀ i, i + 1 < w1.textLines.length →
        positionAt w1.textLines (i + 1)
          = positionAt w1.textLines i + QString.size (strAt w1.textLines i) + 1) ∧
      StrictlyIncreasing w1.textLines) :=
  ⟨by decide,
    doRefresh_positions UT64_MAX id (fun _ => "0x1000") (fun _ => linesWide) 3 4096 (idle 5)
      (by decide) (by decide) (by decide) (by decide)⟩

/-- The positions `doRefresh` records for `linesWide` are 0 and 3, and the caret
positions 0 to 4 resolve to the addresses 5, 5, 5, 7, 7. -/
theorem doRefresh_positions_wide :
    (doRefresh UT64_MAX id (fun _ => "0x1000") (some (fun _ => linesWide)) 3 4096 (idle 5)).map
        (fun w1 => (w1.textLines.map (fun r => r.position),
          [getOffsetAtLine UT64_MAX w1.textLines 0, getOffsetAtLine UT64_MAX w1.textLines 1,
            getOffsetAtLine UT64_MAX w1.textLines 2, getOffsetAtLine UT64_MAX w1.textLines 3,
            getOffsetAtLine UT64_MAX w1.textLines 4]))
      = some ([0, 3], [5, 5, 5, 7, 7]) := by
  decide

/-- C3: for every non-empty decompilation result whose line texts hold no line
terminator, `doRefresh` returns, and for every line `i` of the result and every
caret position `p` from the position of line `i` up to that position plus the
size of the line's text, in UTF-16 code units, `getOffsetAtLine` at `p` is
exactly the address of line `i` (which is `RVA_INVALID` when the line has no
address). -/
theorem getOffsetAtLine_inside_line (RVA_INVALID : Nat) (tr : QString → QString)
    (RAddressString : Nat → QString) (decompileAt : Nat → List DecompiledCode.Line)
    (fuel addr : Nat) (w : Widget) (i : Nat) (line : DecompiledCode.Line)
    (hfuel : 3 ≤ fuel) (haddr : addr ≠ RVA_INVALID)
    (_hterm : ∀ l, l ∈ decompileAt addr →
      ∀ c, c ∈ l.str.data → c ≠ Char.ofNat 10 ∧ c ≠ Char.ofNat 13)
    (hi : (decompileAt addr)[i]? = some line) :
    ∃ w1, doRefresh RVA_INVALID tr RAddressString (some decompileAt) fuel addr w = some w1 ∧
      ∀ p : Int, positionAt w1.textLines i ≤ p →
        p ≤ positionAt w1.textLines i + QString.size line.str →
        getOffsetAtLine RVA_INVALID w1.textLines p = line.addr := by
  have hne : decompileAt addr ≠ [] := by
    intro h; rw [h] at hi; simp at hi
  have hilt : i < (decompileAt addr).length := by
    by_contra hcon
    rw [List.getElem?_eq_none (by omega)] at hi
    exact Option.noConfusion hi
  obtain ⟨f, rfl⟩ : ∃ f, fuel = f + 3 := ⟨fuel - 3, by omega⟩
  obtain ⟨w1, h1, h2⟩ := doRefresh_textLines RVA_INVALID tr RAddressString decompileAt f addr w
    haddr hne
  refine ⟨w1, h1, ?_⟩
  intro p hlo hhi
  have hlen : w1.textLines.length = (decompileAt addr).length := by
    rw [h2, doRefresh.records_length]
  have hrec : (w1.textLines[i]?).map (fun r => r.line) = some line := by
    rw [← List.getElem?_map, h2, doRefresh.records_line]
    exact hi
  obtain ⟨r, hr, hrl⟩ := Option.map_eq_some'.mp hrec
  have hstr : strAt w1.textLines i = line.str := by simp [strAt, hr, hrl]
  have hs : StrictlyIncreasing w1.textLines := by
    rw [h2]; exact doRefresh.records_increasing _ _
  have hnext : i + 1 = w1.textLines.length ∨ p < positionAt w1.textLines (i + 1) := by
    by_cases h : i + 1 = w1.textLines.length
    · exact Or.inl h
    · right
      have hi1 : i + 1 < (decompileAt addr).length := by omega
      have := doRefresh.records_next (decompileAt addr) 0 i hi1
      rw [← h2, hstr] at this
      omega
  obtain ⟨hk0, hk⟩ := findLine_unique w1.textLines p hs i (by omega) hlo hnext
  unfold getOffsetAtLine
  simp only [if_neg (Nat.pos_iff_ne_zero.mp hk0)]
  rw [← hk]
  simp [addrAt, hr, hrl]

/-- Witness of C3: the result with addresses 5, 5, 7; its second line `b++;`
starts at position 7, and every caret position from 7 to 11 resolves to 5. -/
theorem getOffsetAtLine_inside_line_witness :
    (3 ≤ 3 ∧ 4096 ≠ UT64_MAX ∧
      (∀ l, l ∈ (fun _ => linesTie) 4096 →
        ∀ c, c ∈ l.str.data → c ≠ Char.ofNat 10 ∧ c ≠ Char.ofNat 13) ∧
      ((fun _ => linesTie) 4096)[1]? = some ⟨"b++;", 5⟩) ∧
    (∃ w1, doRefresh UT64_MAX id (fun _ => "0x1000") (some (fun _ => linesTie)) 3 4096 (idle 5)
        = some w1 ∧
      ∀ p : Int, positionAt w1.textLines 1 ≤ p →
        p ≤ positionAt w1.textLines 1 + QString.size (DecompiledCode.Line.mk "b++;" 5).str →
        getOffsetAtLine UT64_MAX w1.textLines p = (DecompiledCode.Line.mk "b++;" 5).addr) :=
  ⟨⟨by decide, by decide, by decide, by decide⟩,
    getOffsetAtLine_inside_line UT64_MAX id (fun _ => "0x1000") (fun _ => linesTie) 3 4096
      (idle 5) 1 ⟨"b++;", 5⟩ (by decide) (by decide) (by decide) (by decide)⟩

/-- C7: from a state with `seekFromCursor` false, processing a caret-movement
notification returns within three nested calls, leaves the caret where it is
and leaves `seekFromCursor` false; a `seekChanged` that arrives while
`seekFromCursor` is set returns the state unchanged, so without running
`updateCursorPosition`; `seekChanged` and `updateCursorPosition` return without
a request to the host (the record of requested seeks and the host offset are
unchanged); and every sequence of caret and offset notifications is processed
with at most four nested calls per notification. -/
theorem no_infinite_propagation (RVA_INVALID : Nat) (w : Widget) (fuel : Nat)
    (ns : List Notification) (hw : w.seekFromCursor = false) (hfuel : 3 ≤ fuel) :
    (∃ w1, cursorPositionChanged RVA_INVALID fuel w = some w1 ∧
      w1.textCursor = w.textCursor ∧ w1.seekFromCursor = false) ∧
    (∀ v : Widget, v.seekFromCursor = true → seekChanged RVA_INVALID fuel v = some v) ∧
    (∀ v : Widget, ∃ v1, seekChanged RVA_INVALID fuel v = some v1 ∧
      v1.seeks = v.seeks ∧ v1.coreOffset = v.coreOffset) ∧
    (∀ v : Widget, ∃ v1, updateCursorPosition RVA_INVALID fuel v = some v1 ∧
      v1.seeks = v.seeks ∧ v1.coreOffset = v.coreOffset) ∧
    (∃ w1, deliver RVA_INVALID (fuel + 1) ns w = some w1 ∧ w1.seekFromCursor = false) := by
  obtain ⟨f, rfl⟩ : ∃ f, fuel = f + 3 := ⟨fuel - 3, by omega⟩
  refine ⟨?_, ?_, ?_, ?_, ?_⟩
  · obtain ⟨w1, h1, _, h3, h4⟩ := cursorPositionChanged_frame RVA_INVALID f w hw
    exact ⟨w1, h1, h3, h4⟩
  · intro v hv
    exact seekChanged_guarded RVA_INVALID (f + 2) v hv
  · intro v
    obtain ⟨v1, h1, _, _, h4, h5⟩ := seekChanged_frame RVA_INVALID f v
    exact ⟨v1, h1, h5, h4⟩
  · intro v
    obtain ⟨v1, h1, _, _, h4, h5⟩ := updateCursorPosition_frame RVA_INVALID (f + 1) v
    exact ⟨v1, h1, h5, h4⟩
  · exact deliver_frame RVA_INVALID f ns w hw

/-- Witness of C7: the widget showing `docTie` with the caret on the line of
address 7 and the host at 5, and four alternating notifications. -/
theorem no_infinite_propagation_witness :
    (widgetTie.seekFromCursor = false ∧ 3 ≤ 3) ∧
    ((∃ w1, cursorPositionChanged UT64_MAX 3 widgetTie = some w1 ∧
      w1.textCursor = widgetTie.textCursor ∧ w1.seekFromCursor = false) ∧
    (∀ v : Widget, v.seekFromCursor = true → seekChanged UT64_MAX 3 v = some v) ∧
    (∀ v : Widget, ∃ v1, seekChanged UT64_MAX 3 v = some v1 ∧
      v1.seeks = v.seeks ∧ v1.coreOffset = v.coreOffset) ∧
    (∀ v : Widget, ∃ v1, updateCursorPosition UT64_MAX 3 v = some v1 ∧
      v1.seeks = v.seeks ∧ v1.coreOffset = v.coreOffset) ∧
    (∃ w1, deliver UT64_MAX (3 + 1)
        [Notification.caret 8, Notification.offset 7, Notification.caret 0,
          Notification.offset 5] widgetTie = some w1 ∧
      w1.seekFromCursor = false)) :=
  ⟨⟨by decide, by decide⟩,
    no_infinite_propagation UT64_MAX widgetTie 3
      [Notification.caret 8, Notification.offset 7, Notification.caret 0,
        Notification.offset 5] (by decide) (by decide)⟩

/-! ## Highlight derivation -/

/-- The loop of `updateSelection` started at `it` visits the consecutive lines
from `it` up to, and excluding, the first line that has no address or an
address greater than `cursorOffset`. -/
theorem updateSelection_loop_spec (inv : Nat) (tl : List DecompiledCodeTextLine) (a : Nat) :
    ∀ (rest : List DecompiledCodeTextLine) (it : Nat), tl.drop it = rest → it ≤ tl.length →
      ∃ n, updateSelection.loop inv a rest it = List.range' it n ∧ it + n ≤ tl.length ∧
        (∀ j, it ≤ j → j < it + n → addrAt inv tl j ≠ inv ∧ addrAt inv tl j ≤ a) ∧
        (it + n < tl.length →
          ¬ (addrAt inv tl (it + n) ≠ inv ∧ addrAt inv tl (it + n) ≤ a)) := by
  intro rest
  induction rest with
  | nil =>
    intro it hdrop hle
    have hlen : tl.length ≤ it := List.drop_eq_nil_iff.mp hdrop
    exact ⟨0, by simp [updateSelection.loop], by omega, fun j h1 h2 => by omega,
      fun h => by omega⟩
  | cons l rest ih =>
    intro it hdrop hle
    obtain ⟨hget, hdrop1⟩ := drop_cons_step tl it l rest hdrop
    have haddr : addrAt inv tl it = l.line.addr := addrAt_of_getElem? inv tl it l hget
    have hlt : it < tl.length := by
      by_contra hcon
      have : tl.drop it = [] := List.drop_eq_nil_iff.mpr (by omega)
      rw [this] at hdrop
      exact List.noConfusion hdrop
    by_cases hc : l.line.addr ≠ inv ∧ l.line.addr ≤ a
    · obtain ⟨n, h1, h2, h3, h4⟩ := ih (it + 1) hdrop1 (by omega)
      refine ⟨n + 1, ?_, by omega, ?_, ?_⟩
      · rw [updateSelection.loop, if_pos hc, h1]
        rfl
      · intro j hj1 hj2
        rcases Nat.eq_or_lt_of_le hj1 with h | h
        · subst h; rw [haddr]; exact hc
        · exact h3 j (by omega) (by omega)
      · intro h
        have heq : it + (n + 1) = it + 1 + n := by omega
        rw [heq] at h ⊢
        exact h4 h
    · refine ⟨0, ?_, by omega, fun j h1 h2 => by omega, ?_⟩
      · rw [updateSelection.loop, if_neg hc]
        rfl
      · intro _
        rw [Nat.add_zero, haddr]
        exact hc

theorem getOffsetAtLine_present (inv : Nat) (tl : List DecompiledCodeTextLine) (p : Int)
    (h : getOffsetAtLine inv tl p ≠ inv) :
    addrAt inv tl (findLine tl p - 1) = getOffsetAtLine inv tl p := by
  unfold getOffsetAtLine at h ⊢
  by_cases h0 : findLine tl p = 0
  · simp only [h0, if_true] at h
    exact absurd rfl h
  · simp only [if_neg h0]

/-- C8, as amended: for every document and every caret position that resolves
to a valid address `A`, the address-based highlight set of `updateSelection`
consists of exactly the consecutive lines from the line returned by
`findLineByOffset` for `A` up to, and excluding, the first line that has no
address or a valid address greater than `A`, so lines without address are not
in the set; when the valid addresses are non-decreasing in document order, the
set is not empty, starts at the earliest line with address `A`, and every line
in it carries the address `A`. -/
theorem updateSelection_run (RVA_INVALID : Nat) (w : Widget) (A s : Nat)
    (hres : getOffsetAtLine RVA_INVALID w.textLines w.textCursor = A) (hA : A ≠ RVA_INVALID)
    (hs : findLineByOffset RVA_INVALID w.textLines A = s) :
    ∃ n,
      updateSelection.lines RVA_INVALID w.textLines A = List.range' s n ∧
      (updateSelection RVA_INVALID w).extraSelections
        = (List.range' s n).map (positionAt w.textLines) ∧
      s + n ≤ w.textLines.length ∧
      (∀ j, s ≤ j → j < s + n →
        addrAt RVA_INVALID w.textLines j ≠ RVA_INVALID ∧ addrAt RVA_INVALID w.textLines j ≤ A) ∧
      (s + n < w.textLines.length →
        ¬ (addrAt RVA_INVALID w.textLines (s + n) ≠ RVA_INVALID ∧
            addrAt RVA_INVALID w.textLines (s + n) ≤ A)) ∧
      (NonDecreasing RVA_INVALID w.textLines →
        0 < n ∧ addrAt RVA_INVALID w.textLines s = A ∧
        (∀ j, j < s → addrAt RVA_INVALID w.textLines j ≠ A) ∧
        (∀ j, s ≤ j → j < s + n → addrAt RVA_INVALID w.textLines j = A)) := by
  subst hs
  have hAdef := hres
  have hpres := getOffsetAtLine_present RVA_INVALID w.textLines w.textCursor
    (by rw [hAdef]; exact hA)
  rw [hAdef] at hpres
  have hne : w.textLines ≠ [] := by
    intro h
    rw [h] at hpres
    exact hA (by rw [← hpres]; simp [addrAt])
  have hslt := findLineByOffset_lt_length RVA_INVALID w.textLines A hne
  obtain ⟨n, h1, h2, h3, h4⟩ := updateSelection_loop_spec RVA_INVALID w.textLines A
    (w.textLines.drop (findLineByOffset RVA_INVALID w.textLines A))
    (findLineByOffset RVA_INVALID w.textLines A) rfl (by omega)
  have hlines : updateSelection.lines RVA_INVALID w.textLines A
      = List.range' (findLineByOffset RVA_INVALID w.textLines A) n := h1
  refine ⟨n, hlines, ?_, h2, h3, h4, ?_⟩
  · unfold updateSelection
    simp only [hAdef, if_pos hA, hlines]
  · intro hmono
    have hm : findLine w.textLines w.textCursor - 1 < w.textLines.length := by
      by_contra hcon
      exact hA (by rw [← hpres]; exact addrAt_of_length_le RVA_INVALID _ _ (by omega))
    obtain ⟨_, haddr, hfirst⟩ := findLineByOffset_earliest RVA_INVALID w.textLines A
      (findLine w.textLines w.textCursor - 1) hA hpres
      (fun j hj hjv => by
        have := hmono _ hm j hj hjv (by rw [hpres]; exact hA)
        rw [hpres] at this
        exact this)
    refine ⟨?_, haddr, hfirst, ?_⟩
    · by_contra hcon
      have hn : n = 0 := by omega
      subst hn
      exact h4 (by omega) ⟨by rw [Nat.add_zero, haddr]; exact hA,
        by rw [Nat.add_zero, haddr]⟩
    · intro j hj1 hj2
      obtain ⟨hjv, hjle⟩ := h3 j hj1 hj2
      rcases Nat.eq_or_lt_of_le hj1 with h | h
      · rw [← h]; exact haddr
      · have := hmono j (by omega) _ h (by rw [haddr]; exact hA) hjv
        rw [haddr] at this
        omega

/-- Witness of C8 as amended: `docGap` with the caret on its first line, which
resolves to 5; the lookup of 5 gives the first line. -/
theorem updateSelection_run_witness :
    (getOffsetAtLine UT64_MAX widgetGap.textLines widgetGap.textCursor = 5 ∧ 5 ≠ UT64_MAX ∧
      findLineByOffset UT64_MAX widgetGap.textLines 5 = 0) ∧
    (∃ n,
      updateSelection.lines UT64_MAX widgetGap.textLines 5 = List.range' 0 n ∧
      (updateSelection UT64_MAX widgetGap).extraSelections
        = (List.range' 0 n).map (positionAt widgetGap.textLines) ∧
      0 + n ≤ widgetGap.textLines.length ∧
      (∀ j, 0 ≤ j → j < 0 + n →
        addrAt UT64_MAX widgetGap.textLines j ≠ UT64_MAX ∧
          addrAt UT64_MAX widgetGap.textLines j ≤ 5) ∧
      (0 + n < widgetGap.textLines.length →
        ¬ (addrAt UT64_MAX widgetGap.textLines (0 + n) ≠ UT64_MAX ∧
            addrAt UT64_MAX widgetGap.textLines (0 + n) ≤ 5)) ∧
      (NonDecreasing UT64_MAX widgetGap.textLines →
        0 < n ∧ addrAt UT64_MAX widgetGap.textLines 0 = 5 ∧
        (∀ j, j < 0 → addrAt UT64_MAX widgetGap.textLines j ≠ 5) ∧
        (∀ j, 0 ≤ j → j < 0 + n → addrAt UT64_MAX widgetGap.textLines j = 5))) :=
  ⟨by decide, updateSelection_run UT64_MAX widgetGap 5 0 (by decide) (by decide) (by decide)⟩

/-- C8 fails as stated: in `docGap` (addresses 5, none, 5, 7) the caret at
position 0 resolves to the valid address 5; the earliest line with address 5
is the first line and the first line with a different valid address is the
fourth, so the stated set is the first three lines, the second of which has no
address; `updateSelection` highlights the first line only. -/
theorem updateSelection_run_counterexample :
    getOffsetAtLine UT64_MAX widgetGap.textLines widgetGap.textCursor = 5 ∧ 5 ≠ UT64_MAX ∧
      addrAt UT64_MAX docGap 0 = 5 ∧ addrAt UT64_MAX docGap 1 = UT64_MAX ∧
      addrAt UT64_MAX docGap 2 = 5 ∧
      (addrAt UT64_MAX docGap 3 ≠ UT64_MAX ∧ addrAt UT64_MAX docGap 3 ≠ 5) ∧
      updateSelection.lines UT64_MAX widgetGap.textLines 5 = [0] ∧
      updateSelection.lines UT64_MAX widgetGap.textLines 5 ≠ [0, 1, 2] ∧
      (updateSelection UT64_MAX widgetGap).extraSelections = [0] := by
  decide


/-! ## The result of `findLineByOffset` and the backward walk -/

/-- C14: for every document and target, if the line returned by
`findLineByOffset` has a valid address, then no earlier line carries that same
address and the backward walk of `updateCursorPosition` leaves the returned line
unchanged; so the walk moves the result only when the returned line has no
address. -/
theorem findLineByOffset_walk_fixed (RVA_INVALID : Nat)
    (textLines : List DecompiledCodeTextLine) (offset : Nat) :
    (addrAt RVA_INVALID textLines (findLineByOffset RVA_INVALID textLines offset) ≠ RVA_INVALID →
      (∀ j, j < findLineByOffset RVA_INVALID textLines offset →
        addrAt RVA_INVALID textLines j
          ≠ addrAt RVA_INVALID textLines (findLineByOffset RVA_INVALID textLines offset)) ∧
      updateCursorPosition.loop RVA_INVALID textLines
          (findLineByOffset RVA_INVALID textLines offset)
        = findLineByOffset RVA_INVALID textLines offset) ∧
    (updateCursorPosition.loop RVA_INVALID textLines
          (findLineByOffset RVA_INVALID textLines offset)
        ≠ findLineByOffset RVA_INVALID textLines offset →
      addrAt RVA_INVALID textLines (findLineByOffset RVA_INVALID textLines offset)
        = RVA_INVALID) := by
  have key : addrAt RVA_INVALID textLines (findLineByOffset RVA_INVALID textLines offset)
        ≠ RVA_INVALID →
      ∀ j, j < findLineByOffset RVA_INVALID textLines offset →
        addrAt RVA_INVALID textLines j
          ≠ addrAt RVA_INVALID textLines (findLineByOffset RVA_INVALID textLines offset) := by
    intro hv j hj
    obtain ⟨k, _, h0, hB⟩ := findLineByOffset_spec RVA_INVALID textLines offset
    rcases Nat.eq_zero_or_pos k with hk | hk
    · rw [h0 hk] at hj; omega
    · rcases (hB hk).2 with ⟨hinv, _, _⟩ | ⟨_, _, hfirst⟩
      · exact absurd hinv hv
      · intro heq
        have := hfirst j hj (by rw [heq]; exact hv)
        omega
  refine ⟨fun hv => ⟨key hv, updateCursorPosition.loop_stay RVA_INVALID textLines _ (key hv)⟩, ?_⟩
  intro hmoved
  by_contra hv
  exact hmoved (updateCursorPosition.loop_stay RVA_INVALID textLines _ (key hv))

/-- Witness of C14: in `docTie` the lookup of 7 returns the third line, whose
address 7 is valid. -/
theorem findLineByOffset_walk_fixed_witness :
    addrAt UT64_MAX docTie (findLineByOffset UT64_MAX docTie 7) ≠ UT64_MAX ∧
    ((∀ j, j < findLineByOffset UT64_MAX docTie 7 →
        addrAt UT64_MAX docTie j ≠ addrAt UT64_MAX docTie (findLineByOffset UT64_MAX docTie 7)) ∧
      updateCursorPosition.loop UT64_MAX docTie (findLineByOffset UT64_MAX docTie 7)
        = findLineByOffset UT64_MAX docTie 7) :=
  ⟨by decide, (findLineByOffset_walk_fixed UT64_MAX docTie 7).1 (by decide)⟩

/-- C15: for every non-empty document and every target address,
`findLineByOffset` returns a line whose valid address exceeds the target if and
only if the first line of the document has a valid address greater than the
target, and then the returned line is the first line; in every other case the
scan covers at least one line before it stops at `k`, the returned line is one
of the scanned lines, and either it has no address and no scanned line has one,
or its address is valid, at most the target, and the greatest valid address
among the scanned lines. -/
theorem findLineByOffset_cases (RVA_INVALID : Nat) (textLines : List DecompiledCodeTextLine)
    (offset : Nat) (hne : textLines ≠ []) :
    ((addrAt RVA_INVALID textLines (findLineByOffset RVA_INVALID textLines offset) ≠ RVA_INVALID ∧
        addrAt RVA_INVALID textLines (findLineByOffset RVA_INVALID textLines offset) > offset) ↔
      (addrAt RVA_INVALID textLines 0 ≠ RVA_INVALID ∧ addrAt RVA_INVALID textLines 0 > offset)) ∧
    ((addrAt RVA_INVALID textLines 0 ≠ RVA_INVALID ∧ addrAt RVA_INVALID textLines 0 > offset) →
      findLineByOffset RVA_INVALID textLines offset = 0) ∧
    (¬ (addrAt RVA_INVALID textLines 0 ≠ RVA_INVALID ∧ addrAt RVA_INVALID textLines 0 > offset) →
      ∃ k, StopsAt RVA_INVALID textLines offset k ∧ 0 < k ∧
        findLineByOffset RVA_INVALID textLines offset < k ∧
        ((addrAt RVA_INVALID textLines (findLineByOffset RVA_INVALID textLines offset)
              = RVA_INVALID ∧
            ∀ j, j < k → addrAt RVA_INVALID textLines j = RVA_INVALID) ∨
          (addrAt RVA_INVALID textLines (findLineByOffset RVA_INVALID textLines offset)
              ≠ RVA_INVALID ∧
            addrAt RVA_INVALID textLines (findLineByOffset RVA_INVALID textLines offset)
              ≤ offset ∧
            ∀ j, j < k → addrAt RVA_INVALID textLines j ≠ RVA_INVALID →
              addrAt RVA_INVALID textLines j
                ≤ addrAt RVA_INVALID textLines
                    (findLineByOffset RVA_INVALID textLines offset)))) := by
  have hpos : 0 < textLines.length := List.length_pos.mpr hne
  obtain ⟨k, hstop, h0, hB⟩ := findLineByOffset_spec RVA_INVALID textLines offset
  obtain ⟨hkle, hscan, hstopk⟩ := hstop
  have hfirst : (addrAt RVA_INVALID textLines 0 ≠ RVA_INVALID ∧
      addrAt RVA_INVALID textLines 0 > offset) → k = 0 := by
    intro h
    by_contra hk
    exact hscan 0 (by omega) h
  have hother : ¬ (addrAt RVA_INVALID textLines 0 ≠ RVA_INVALID ∧
      addrAt RVA_INVALID textLines 0 > offset) → 0 < k := by
    intro h
    by_contra hk
    have hk0 : k = 0 := by omega
    subst hk0
    exact h (hstopk hpos)
  refine ⟨⟨?_, ?_⟩, ?_, ?_⟩
  · intro hr
    by_contra hcon
    have hk := hother hcon
    exact hscan _ (hB hk).1 hr
  · intro h
    rw [h0 (hfirst h)]
    exact h
  · intro h
    exact h0 (hfirst h)
  · intro h
    have hk := hother h
    obtain ⟨hrk, hcase⟩ := hB hk
    refine ⟨k, ⟨hkle, hscan, hstopk⟩, hk, hrk, ?_⟩
    rcases hcase with ⟨hinv, _, hall⟩ | ⟨hv, hmax, _⟩
    · exact Or.inl ⟨hinv, hall⟩
    · refine Or.inr ⟨hv, ?_, hmax⟩
      by_contra hgt
      exact hscan _ hrk ⟨hv, by omega⟩

/-- Witness of C15: `docTie` and the target 6; the scan stops at the third line
and the result is the first line, with the address 5. -/
theorem findLineByOffset_cases_witness :
    docTie ≠ [] ∧
    (((addrAt UT64_MAX docTie (findLineByOffset UT64_MAX docTie 6) ≠ UT64_MAX ∧
        addrAt UT64_MAX docTie (findLineByOffset UT64_MAX docTie 6) > 6) ↔
      (addrAt UT64_MAX docTie 0 ≠ UT64_MAX ∧ addrAt UT64_MAX docTie 0 > 6)) ∧
    ((addrAt UT64_MAX docTie 0 ≠ UT64_MAX ∧ addrAt UT64_MAX docTie 0 > 6) →
      findLineByOffset UT64_MAX docTie 6 = 0) ∧
    (¬ (addrAt UT64_MAX docTie 0 ≠ UT64_MAX ∧ addrAt UT64_MAX docTie 0 > 6) →
      ∃ k, StopsAt UT64_MAX docTie 6 k ∧ 0 < k ∧
        findLineByOffset UT64_MAX docTie 6 < k ∧
        ((addrAt UT64_MAX docTie (findLineByOffset UT64_MAX docTie 6) = UT64_MAX ∧
            ∀ j, j < k → addrAt UT64_MAX docTie j = UT64_MAX) ∨
          (addrAt UT64_MAX docTie (findLineByOffset UT64_MAX docTie 6) ≠ UT64_MAX ∧
            addrAt UT64_MAX docTie (findLineByOffset UT64_MAX docTie 6) ≤ 6 ∧
            ∀ j, j < k → addrAt UT64_MAX docTie j ≠ UT64_MAX →
              addrAt UT64_MAX docTie j
                ≤ addrAt UT64_MAX docTie (findLineByOffset UT64_MAX docTie 6))))) :=
  ⟨by decide, findLineByOffset_cases UT64_MAX docTie 6 (by decide)⟩


/-! ## Iterators stay in range -/

theorem findLineByOffset_checked_loop (inv : Nat) (tl : List DecompiledCodeTextLine)
    (offset : Nat) :
    ∀ (rest : List DecompiledCodeTextLine) (it c : Nat), tl.drop it = rest → c ≤ it →
      findLineByOffset.checked inv tl offset rest it c
        = some (findLineByOffset.loop inv tl offset rest it c) := by
  intro rest
  induction rest with
  | nil => intro it c _ _; rfl
  | cons l rest ih =>
    intro it c hdrop hc
    obtain ⟨_, hdrop1⟩ := drop_cons_step tl it l rest hdrop
    have hlt : it < tl.length := by
      by_contra hcon
      have : tl.drop it = [] := List.drop_eq_nil_iff.mpr (by omega)
      rw [this] at hdrop
      exact List.noConfusion hdrop
    have hclt : c < tl.length := by omega
    have hget : tl[c]? = some (tl.get ⟨c, hclt⟩) := by
      simp [List.getElem?_eq_getElem hclt]
    have haddr : addrAt inv tl c = (tl.get ⟨c, hclt⟩).line.addr :=
      addrAt_of_getElem? inv tl c _ hget
    rw [findLineByOffset.checked, findLineByOffset.loop]
    by_cases hbreak : l.line.addr ≠ inv ∧ l.line.addr > offset
    · simp only [if_pos hbreak]
    · simp only [if_neg hbreak, hget, haddr]
      by_cases hmove : (tl.get ⟨c, hclt⟩).line.addr = inv ∨
          (l.line.addr ≠ inv ∧ l.line.addr > (tl.get ⟨c, hclt⟩).line.addr)
      · simp only [if_pos hmove]
        exact ih (it + 1) it hdrop1 (by omega)
      · simp only [if_neg hmove]
        exact ih (it + 1) c hdrop1 (by omega)

theorem updateCursorPosition_checked_loop (inv : Nat) (tl : List DecompiledCodeTextLine) :
    ∀ it, it < tl.length →
      updateCursorPosition.checked tl it = some (updateCursorPosition.loop inv tl it) := by
  intro it
  induction it with
  | zero => intro _; rfl
  | succ n ih =>
    intro h
    have hn : n < tl.length := by omega
    have hget0 : tl[n]? = some (tl.get ⟨n, hn⟩) := by simp [List.getElem?_eq_getElem hn]
    have hget1 : tl[n + 1]? = some (tl.get ⟨n + 1, h⟩) := by simp [List.getElem?_eq_getElem h]
    rw [updateCursorPosition.checked, updateCursorPosition.loop,
      addrAt_of_getElem? inv tl n _ hget0, addrAt_of_getElem? inv tl (n + 1) _ hget1]
    simp only [hget0, hget1]
    by_cases hne : (tl.get ⟨n, hn⟩).line.addr ≠ (tl.get ⟨n + 1, h⟩).line.addr
    · simp only [if_pos hne]
    · simp only [if_neg hne]
      exact ih hn

theorem updateCursorPosition_loop_le (inv : Nat) (tl : List DecompiledCodeTextLine) :
    ∀ it, updateCursorPosition.loop inv tl it ≤ it := by
  intro it
  induction it with
  | zero => exact le_refl _
  | succ n ih =>
    rw [updateCursorPosition.loop]
    by_cases h : addrAt inv tl n ≠ addrAt inv tl (n + 1)
    · rw [if_pos h]
    · rw [if_neg h]; omega

/-- C17: for every target address, `findLineByOffset` returns `end()` exactly
when `textLines` is empty; its loop never reads `candidate` outside the lines
(the checked loop gives the same result); on a non-empty list the returned
iterator is a line, the backward walk of `updateCursorPosition` from it reads
lines only and ends at an iterator not greater than the one returned; and every
iterator at which the loop of `updateSelection` runs its body is a line. -/
theorem findLineByOffset_in_range (RVA_INVALID : Nat) (textLines : List DecompiledCodeTextLine)
    (offset cursorOffset : Nat) :
    (findLineByOffset RVA_INVALID textLines offset = textLines.length ↔ textLines = []) ∧
    findLineByOffset.checked RVA_INVALID textLines offset textLines 0 0
      = some (findLineByOffset RVA_INVALID textLines offset) ∧
    (textLines ≠ [] →
      findLineByOffset RVA_INVALID textLines offset < textLines.length ∧
      updateCursorPosition.checked textLines (findLineByOffset RVA_INVALID textLines offset)
        = some (updateCursorPosition.loop RVA_INVALID textLines
            (findLineByOffset RVA_INVALID textLines offset)) ∧
      updateCursorPosition.loop RVA_INVALID textLines
          (findLineByOffset RVA_INVALID textLines offset)
        ≤ findLineByOffset RVA_INVALID textLines offset) ∧
    (∀ j, j ∈ updateSelection.lines RVA_INVALID textLines cursorOffset →
      j < textLines.length) := by
  refine ⟨⟨?_, ?_⟩, ?_, ?_, ?_⟩
  · intro h
    by_contra hne
    have := findLineByOffset_lt_length RVA_INVALID textLines offset hne
    omega
  · intro h
    subst h
    rfl
  · exact findLineByOffset_checked_loop RVA_INVALID textLines offset textLines 0 0 (by simp)
      (le_refl _)
  · intro hne
    have hlt := findLineByOffset_lt_length RVA_INVALID textLines offset hne
    exact ⟨hlt, updateCursorPosition_checked_loop RVA_INVALID textLines _ hlt,
      updateCursorPosition_loop_le RVA_INVALID textLines _⟩
  · intro j hj
    have hle : findLineByOffset RVA_INVALID textLines cursorOffset ≤ textLines.length := by
      by_cases hne : textLines = []
      · subst hne; exact le_refl _
      · exact le_of_lt (findLineByOffset_lt_length RVA_INVALID textLines cursorOffset hne)
    obtain ⟨n, h1, h2, _⟩ := updateSelection_loop_spec RVA_INVALID textLines cursorOffset
      (textLines.drop (findLineByOffset RVA_INVALID textLines cursorOffset))
      (findLineByOffset RVA_INVALID textLines cursorOffset) rfl hle
    have hmem : j ∈ List.range' (findLineByOffset RVA_INVALID textLines cursorOffset) n := by
      rw [← h1]; exact hj
    have := List.mem_range'_1.mp hmem
    omega

/-- Witness of C17: the non-empty `docTie` with the targets 5 and 7. -/
theorem findLineByOffset_in_range_witness :
    docTie ≠ [] ∧
    (findLineByOffset UT64_MAX docTie 5 < docTie.length ∧
      updateCursorPosition.checked docTie (findLineByOffset UT64_MAX docTie 5)
        = some (updateCursorPosition.loop UT64_MAX docTie (findLineByOffset UT64_MAX docTie 5)) ∧
      updateCursorPosition.loop UT64_MAX docTie (findLineByOffset UT64_MAX docTie 5)
        ≤ findLineByOffset UT64_MAX docTie 5) :=
  ⟨by decide, (findLineByOffset_in_range UT64_MAX docTie 5 7).2.2.1 (by decide)⟩


/-! ## Caret to offset -/

theorem getOffsetAtLine_nil (inv : Nat) (p : Int) : getOffsetAtLine inv [] p = inv := by
  rfl

theorem getOffsetAtLine_before_first (inv : Nat) (tl : List DecompiledCodeTextLine) (p : Int)
    (hs : StrictlyIncreasing tl) (hp : p < positionAt tl 0) : getOffsetAtLine inv tl p = inv := by
  obtain ⟨_, hbefore, _⟩ := findLine_first_after tl p hs
  have hk0 : findLine tl p = 0 := by
    by_contra hcon
    have := hbefore 0 (by omega)
    omega
  unfold getOffsetAtLine
  simp only [hk0, if_true]

/-- C11: `cursorPositionChanged` returns, and it requests a host seek if and
only if the address `A` resolved for the caret is valid and differs from the
current host offset; the address requested is then `A`, which becomes the host
offset; when `A` is the no-address sentinel no seek is requested and the host
offset is unchanged, and `A` is the sentinel when the document is empty, when
the caret is before the first line of a document with strictly increasing
positions, and when the line under the caret has no address. -/
theorem cursorPositionChanged_seek (RVA_INVALID : Nat) (w : Widget) (fuel A : Nat)
    (hfuel : 3 ≤ fuel)
    (hres : getOffsetAtLine RVA_INVALID w.textLines w.textCursor = A) :
    (∃ w1, cursorPositionChanged RVA_INVALID fuel w = some w1 ∧
      (w1.seeks ≠ w.seeks ↔ (A ≠ RVA_INVALID ∧ A ≠ w.coreOffset)) ∧
      ((A ≠ RVA_INVALID ∧ A ≠ w.coreOffset) → w1.seeks = A :: w.seeks ∧ w1.coreOffset = A) ∧
      (¬ (A ≠ RVA_INVALID ∧ A ≠ w.coreOffset) →
        w1.seeks = w.seeks ∧ w1.coreOffset = w.coreOffset) ∧
      (A = RVA_INVALID → w1.seeks = w.seeks ∧ w1.coreOffset = w.coreOffset)) ∧
    (w.textLines = [] → A = RVA_INVALID) ∧
    (StrictlyIncreasing w.textLines → w.textCursor < positionAt w.textLines 0 →
      A = RVA_INVALID) ∧
    (0 < findLine w.textLines w.textCursor →
      addrAt RVA_INVALID w.textLines (findLine w.textLines w.textCursor - 1) = RVA_INVALID →
      A = RVA_INVALID) := by
  obtain ⟨f, rfl⟩ : ∃ f, fuel = f + 3 := ⟨fuel - 3, by omega⟩
  subst hres
  refine ⟨⟨_, cursorPositionChanged_eq RVA_INVALID f w, ?_⟩, ?_, ?_, ?_⟩
  · obtain ⟨_, _, _, _, _, h6, h7⟩ := updateSelection_fields RVA_INVALID
      (if getOffsetAtLine RVA_INVALID w.textLines w.textCursor ≠ RVA_INVALID ∧
          getOffsetAtLine RVA_INVALID w.textLines w.textCursor ≠ w.coreOffset then
        { w with
          seekFromCursor := false,
          coreOffset := getOffsetAtLine RVA_INVALID w.textLines w.textCursor,
          seeks := getOffsetAtLine RVA_INVALID w.textLines w.textCursor :: w.seeks }
      else w)
    rw [h6, h7]
    by_cases hc : getOffsetAtLine RVA_INVALID w.textLines w.textCursor ≠ RVA_INVALID ∧
        getOffsetAtLine RVA_INVALID w.textLines w.textCursor ≠ w.coreOffset
    · rw [if_pos hc]
      exact ⟨⟨fun _ => hc, fun _ => List.cons_ne_self _ _⟩, fun _ => ⟨rfl, rfl⟩,
        fun h => absurd hc h, fun h => absurd h hc.1⟩
    · rw [if_neg hc]
      exact ⟨⟨fun h => absurd rfl h, fun h => absurd h hc⟩, fun h => absurd h hc,
        fun _ => ⟨rfl, rfl⟩, fun _ => ⟨rfl, rfl⟩⟩
  · intro h
    rw [h]
    exact getOffsetAtLine_nil RVA_INVALID _
  · intro hs hp
    exact getOffsetAtLine_before_first RVA_INVALID w.textLines w.textCursor hs hp
  · intro hk hinv
    unfold getOffsetAtLine
    simp only [if_neg (Nat.pos_iff_ne_zero.mp hk)]
    exact hinv

/-- Witness of C11: the caret of `widgetBehind` is on a line of address 5 while
the host offset is 7, so a seek to 5 is requested. -/
theorem cursorPositionChanged_seek_witness :
    (3 ≤ 3 ∧ getOffsetAtLine UT64_MAX widgetBehind.textLines widgetBehind.textCursor = 5) ∧
    (∃ w1, cursorPositionChanged UT64_MAX 3 widgetBehind = some w1 ∧
      (w1.seeks ≠ widgetBehind.seeks ↔ (5 ≠ UT64_MAX ∧ 5 ≠ widgetBehind.coreOffset)) ∧
      ((5 ≠ UT64_MAX ∧ 5 ≠ widgetBehind.coreOffset) →
        w1.seeks = 5 :: widgetBehind.seeks ∧ w1.coreOffset = 5) ∧
      (¬ (5 ≠ UT64_MAX ∧ 5 ≠ widgetBehind.coreOffset) →
        w1.seeks = widgetBehind.seeks ∧ w1.coreOffset = widgetBehind.coreOffset) ∧
      (5 = UT64_MAX → w1.seeks = widgetBehind.seeks ∧
        w1.coreOffset = widgetBehind.coreOffset)) :=
  ⟨⟨by decide, by decide⟩,
    (cursorPositionChanged_seek UT64_MAX widgetBehind 3 5 (by decide) (by decide)).1⟩

/-! ## Rebuilding the document -/

theorem cursorPositionChanged_no_address (inv : Nat) (fuel : Nat) (w : Widget)
    (h : getOffsetAtLine inv w.textLines w.textCursor = inv) :
    cursorPositionChanged inv (fuel + 1) w = some (updateSelection inv w) := by
  rw [cursorPositionChanged]
  simp only [h, ne_eq, not_true_eq_false, false_and, if_false]

theorem updateSelection_no_address (inv : Nat) (w : Widget)
    (h : getOffsetAtLine inv w.textLines w.textCursor = inv) :
    updateSelection inv w = { w with extraSelections := [w.textCursor] } := by
  unfold updateSelection
  simp only [h, ne_eq, not_true_eq_false, if_false]

/-- C12: for every prior state and every valid requested address for which the
selected decompiler returns no line, `doRefresh` returns with one nested call at
most and with exactly this state: `textLines` is empty, the document holds the
placeholder message, the caret is where `setPlainText` puts it (position 0),
and, if the slot is connected, the caret alone is highlighted; everything else,
the host offset and the record of requested seeks included, is as before. The
message contains the string of the requested address, and afterwards
`getOffsetAtLine` gives `RVA_INVALID` at every caret position. -/
theorem doRefresh_empty_result (RVA_INVALID : Nat) (tr : QString → QString)
    (RAddressString : Nat → QString) (decompileAt : Nat → List DecompiledCode.Line)
    (fuel addr : Nat) (w : Widget) (hfuel : 1 ≤ fuel) (haddr : addr ≠ RVA_INVALID)
    (hempty : decompileAt addr = []) :
    ∃ w1, doRefresh RVA_INVALID tr RAddressString (some decompileAt) fuel addr w = some w1 ∧
      w1 = { w with
        textLines := [],
        plainText :=
          tr "Cannot decompile at" ++ " " ++ RAddressString addr ++ " " ++ tr "(Not a function?)",
        textCursor := 0,
        extraSelections := if w.connected = true then [0] else w.extraSelections } ∧
      w1.textLines = [] ∧
      (∀ p : Int, getOffsetAtLine RVA_INVALID w1.textLines p = RVA_INVALID) ∧
      (∃ before after : QString, w1.plainText = before ++ RAddressString addr ++ after) ∧
      w1.seeks = w.seeks ∧ w1.coreOffset = w.coreOffset ∧
      w1.seekFromCursor = w.seekFromCursor ∧ w1.connected = w.connected := by
  obtain ⟨f, rfl⟩ : ∃ f, fuel = f + 1 := ⟨fuel - 1, by omega⟩
  refine ⟨_, ?_, rfl, rfl, fun p => getOffsetAtLine_nil RVA_INVALID p,
    ⟨tr "Cannot decompile at" ++ " ", " " ++ tr "(Not a function?)", ?_⟩, rfl, rfl, rfl, rfl⟩
  · unfold doRefresh
    simp only [if_neg haddr, hempty, List.isEmpty_nil, if_true]
    unfold setPlainText
    by_cases hc : w.connected = true
    · simp only [if_pos hc]
      rw [cursorPositionChanged_no_address RVA_INVALID f _ (getOffsetAtLine_nil RVA_INVALID _),
        updateSelection_no_address RVA_INVALID _ (getOffsetAtLine_nil RVA_INVALID _)]
    · simp only [if_neg hc]
  · simp only [String.append_assoc]

/-- Witness of C12: a rebuild at address 4160 (`0x1040`) with a decompiler that
returns no line, from the widget showing `docTie`. -/
theorem doRefresh_empty_result_witness :
    (1 ≤ 1 ∧ 4160 ≠ UT64_MAX ∧ (fun _ => ([] : List DecompiledCode.Line)) 4160 = []) ∧
    (∃ w1, doRefresh UT64_MAX id (fun _ => "0x1040") (some (fun _ => [])) 1 4160 widgetTie
        = some w1 ∧
      w1 = { widgetTie with
        textLines := [],
        plainText :=
          id "Cannot decompile at" ++ " " ++ (fun _ => "0x1040") 4160 ++ " "
            ++ id "(Not a function?)",
        textCursor := 0,
        extraSelections := if widgetTie.connected = true then [0] else widgetTie.extraSelections } ∧
      w1.textLines = [] ∧
      (∀ p : Int, getOffsetAtLine UT64_MAX w1.textLines p = UT64_MAX) ∧
      (∃ before after : QString, w1.plainText = before ++ (fun _ => "0x1040") 4160 ++ after) ∧
      w1.seeks = widgetTie.seeks ∧ w1.coreOffset = widgetTie.coreOffset ∧
      w1.seekFromCursor = widgetTie.seekFromCursor ∧ w1.connected = widgetTie.connected) :=
  ⟨⟨by decide, by decide, rfl⟩,
    doRefresh_empty_result UT64_MAX id (fun _ => "0x1040") (fun _ => []) 1 4160 widgetTie
      (by decide) (by decide) rfl⟩


/-- C13: for every prior state `w` and every non-empty decompilation result of
`n` lines, `doRefresh` returns with exactly `n` records in `textLines`, whose
lines (text and address) are those of the result in the same order; the records
are the same from any other prior state `v`, so `findLineByOffset` after the
rebuild gives the same line whatever the previous document was, and that line is
one of the `n` new records. -/
theorem doRefresh_replaces_document (RVA_INVALID : Nat) (tr : QString → QString)
    (RAddressString : Nat → QString) (decompileAt : Nat → List DecompiledCode.Line)
    (fuel addr offset : Nat) (w v : Widget) (hfuel : 3 ≤ fuel) (haddr : addr ≠ RVA_INVALID)
    (hne : decompileAt addr ≠ []) :
    ∃ w1, doRefresh RVA_INVALID tr RAddressString (some decompileAt) fuel addr w = some w1 ∧
      w1.textLines.length = (decompileAt addr).length ∧
      w1.textLines.map (fun r => r.line) = decompileAt addr ∧
      (∃ v1, doRefresh RVA_INVALID tr RAddressString (some decompileAt) fuel addr v = some v1 ∧
        v1.textLines = w1.textLines ∧
        findLineByOffset RVA_INVALID v1.textLines offset
          = findLineByOffset RVA_INVALID w1.textLines offset) ∧
      findLineByOffset RVA_INVALID w1.textLines offset < (decompileAt addr).length := by
  obtain ⟨f, rfl⟩ : ∃ f, fuel = f + 3 := ⟨fuel - 3, by omega⟩
  obtain ⟨w1, h1, h2⟩ := doRefresh_textLines RVA_INVALID tr RAddressString decompileAt f addr w
    haddr hne
  obtain ⟨v1, h3, h4⟩ := doRefresh_textLines RVA_INVALID tr RAddressString decompileAt f addr v
    haddr hne
  have hlen : w1.textLines.length = (decompileAt addr).length := by
    rw [h2, doRefresh.records_length]
  have hne1 : w1.textLines ≠ [] := by
    intro h
    rw [h] at hlen
    exact hne (List.length_eq_zero.mp hlen.symm)
  refine ⟨w1, h1, hlen, ?_, ⟨v1, h3, ?_, ?_⟩, ?_⟩
  · rw [h2, doRefresh.records_line]
  · rw [h4, h2]
  · rw [h4, h2]
  · rw [← hlen]
    exact findLineByOffset_lt_length RVA_INVALID w1.textLines offset hne1

/-- Witness of C13: the result `linesTie` built once over the idle widget and
once over the widget showing `docGap`. -/
theorem doRefresh_replaces_document_witness :
    (3 ≤ 3 ∧ 4096 ≠ UT64_MAX ∧ (fun _ => linesTie) 4096 ≠ []) ∧
    (∃ w1, doRefresh UT64_MAX id (fun _ => "0x1000") (some (fun _ => linesTie)) 3 4096 (idle 5)
        = some w1 ∧
      w1.textLines.length = ((fun _ => linesTie) 4096).length ∧
      w1.textLines.map (fun r => r.line) = (fun _ => linesTie) 4096 ∧
      (∃ v1, doRefresh UT64_MAX id (fun _ => "0x1000") (some (fun _ => linesTie)) 3 4096 widgetGap
          = some v1 ∧
        v1.textLines = w1.textLines ∧
        findLineByOffset UT64_MAX v1.textLines 7 = findLineByOffset UT64_MAX w1.textLines 7) ∧
      findLineByOffset UT64_MAX w1.textLines 7 < ((fun _ => linesTie) 4096).length) :=
  ⟨by decide,
    doRefresh_replaces_document UT64_MAX id (fun _ => "0x1000") (fun _ => linesTie) 3 4096 7
      (idle 5) widgetGap (by decide) (by decide) (by decide)⟩

/-! ## The highlight run on well-formed documents -/

/-- C16: for every document whose valid addresses are non-decreasing in
document order and every caret position that resolves to a valid address `A`,
the address-based highlight set of `updateSelection` is the run of `n`
consecutive lines from `s`, with `n` positive; `s` is the earliest line with
address `A`, every line of the run carries exactly `A`, and the run ends at
`end()` or at a line that has no address or an address greater than `A`. -/
theorem updateSelection_run_nonDecreasing (RVA_INVALID : Nat) (w : Widget) (A : Nat)
    (hmono : NonDecreasing RVA_INVALID w.textLines)
    (hres : getOffsetAtLine RVA_INVALID w.textLines w.textCursor = A) (hA : A ≠ RVA_INVALID) :
    ∃ s n, 0 < n ∧ s + n ≤ w.textLines.length ∧
      updateSelection.lines RVA_INVALID w.textLines A = List.range' s n ∧
      (updateSelection RVA_INVALID w).extraSelections
        = (List.range' s n).map (positionAt w.textLines) ∧
      addrAt RVA_INVALID w.textLines s = A ∧
      (∀ j, j < s → addrAt RVA_INVALID w.textLines j ≠ A) ∧
      (∀ j, s ≤ j → j < s + n → addrAt RVA_INVALID w.textLines j = A) ∧
      (s + n < w.textLines.length →
        addrAt RVA_INVALID w.textLines (s + n) = RVA_INVALID ∨
          addrAt RVA_INVALID w.textLines (s + n) > A) := by
  have hpres := getOffsetAtLine_present RVA_INVALID w.textLines w.textCursor
    (by rw [hres]; exact hA)
  rw [hres] at hpres
  have hm : findLine w.textLines w.textCursor - 1 < w.textLines.length := by
    by_contra hcon
    exact hA (by rw [← hpres]; exact addrAt_of_length_le RVA_INVALID _ _ (by omega))
  obtain ⟨hslt, haddr, hfirst⟩ := findLineByOffset_earliest RVA_INVALID w.textLines A
    (findLine w.textLines w.textCursor - 1) hA hpres
    (fun j hj hjv => by
      have := hmono _ hm j hj hjv (by rw [hpres]; exact hA)
      rw [hpres] at this
      exact this)
  obtain ⟨n, h1, h2, h3, h4⟩ := updateSelection_loop_spec RVA_INVALID w.textLines A
    (w.textLines.drop (findLineByOffset RVA_INVALID w.textLines A))
    (findLineByOffset RVA_INVALID w.textLines A) rfl (by omega)
  have hlines : updateSelection.lines RVA_INVALID w.textLines A
      = List.range' (findLineByOffset RVA_INVALID w.textLines A) n := h1
  have hn : 0 < n := by
    by_contra hcon
    have hn0 : n = 0 := by omega
    subst hn0
    exact h4 (by omega) ⟨by rw [Nat.add_zero, haddr]; exact hA, by rw [Nat.add_zero, haddr]⟩
  refine ⟨findLineByOffset RVA_INVALID w.textLines A, n, hn, h2, hlines, ?_, haddr, hfirst,
    ?_, ?_⟩
  · unfold updateSelection
    simp only [hres, if_pos hA, hlines]
  · intro j hj1 hj2
    obtain ⟨hjv, hjle⟩ := h3 j hj1 hj2
    rcases Nat.eq_or_lt_of_le hj1 with h | h
    · rw [← h]; exact haddr
    · have := hmono j (by omega) _ h (by rw [haddr]; exact hA) hjv
      rw [haddr] at this
      omega
  · intro hlt
    by_cases hinv : addrAt RVA_INVALID w.textLines
        (findLineByOffset RVA_INVALID w.textLines A + n) = RVA_INVALID
    · exact Or.inl hinv
    · right
      by_contra hle
      exact h4 hlt ⟨hinv, by omega⟩

/-- Witness of C16: `docTie` with the caret on its first line, which resolves
to 5; the run is the first two lines. -/
theorem updateSelection_run_nonDecreasing_witness :
    (NonDecreasing UT64_MAX widgetBehind.textLines ∧
      getOffsetAtLine UT64_MAX widgetBehind.textLines widgetBehind.textCursor = 5 ∧
      5 ≠ UT64_MAX) ∧
    (∃ s n, 0 < n ∧ s + n ≤ widgetBehind.textLines.length ∧
      updateSelection.lines UT64_MAX widgetBehind.textLines 5 = List.range' s n ∧
      (updateSelection UT64_MAX widgetBehind).extraSelections
        = (List.range' s n).map (positionAt widgetBehind.textLines) ∧
      addrAt UT64_MAX widgetBehind.textLines s = 5 ∧
      (∀ j, j < s → addrAt UT64_MAX widgetBehind.textLines j ≠ 5) ∧
      (∀ j, s ≤ j → j < s + n → addrAt UT64_MAX widgetBehind.textLines j = 5) ∧
      (s + n < widgetBehind.textLines.length →
        addrAt UT64_MAX widgetBehind.textLines (s + n) = UT64_MAX ∨
          addrAt UT64_MAX widgetBehind.textLines (s + n) > 5)) :=
  ⟨⟨by unfold NonDecreasing; decide, by decide, by decide⟩,
    updateSelection_run_nonDecreasing UT64_MAX widgetBehind 5 (by unfold NonDecreasing; decide)
      (by decide) (by decide)⟩

end DecompilerWidget
